import Mathlib

/-
Verification development for the MergeSAT repository (pysrc/).

Shallow embedding of the core solver: `Assignment` and `Certificate`
(pysrc/solver_types.py, pysrc/instance.py `Certificate`), `_Clause`
(embedded as `Clause`), and the `Instance` merge/solve machinery.

Python integers are modelled as `Int`.  A Python `dict` from variables to
assignments is modelled as an association list with dict semantics:
`dictInsert` replaces the value of an existing key in place (keeping its
position) and appends a fresh key at the end, exactly like `d[k] = v`;
`dictUpdate` is `d.update(other)`.  A method that can raise is embedded as
an `Except String` value carrying the message of the `ValueError` it
raises; a mutating method that can raise is embedded as a pair of the
state after the call and the optional error (the Python code never
mutates before raising on the paths embedded this way).
-/

set_option maxRecDepth 4000

namespace MergeSAT

/-- Three-valued truth value, from `solver_types.Assignment`. -/
inductive Assignment where
  | true
  | false
  | unassigned
deriving DecidableEq

/-- `Assignment.inverse` (solver_types.py lines 41-48). -/
def Assignment.inverse : Assignment → Assignment
  | .true => .false
  | .false => .true
  | .unassigned => .unassigned

/-- Rendering of an `Assignment`, as Python `str()` renders the enum member
(used only inside error messages built from f-strings). -/
def Assignment.str : Assignment → String
  | .true => "Assignment.true"
  | .false => "Assignment.false"
  | .unassigned => "Assignment.unassigned"

/-- The variable-to-assignment mapping of a certificate (a Python dict). -/
abbrev AList := List (Int × Assignment)

/-- Dict lookup `d.get(k)` / `k in d` combined: `some v` iff key present. -/
def dictGet : AList → Int → Option Assignment
  | [], _ => none
  | (k2, v) :: rest, k => if k = k2 then some v else dictGet rest k

/-- Dict assignment `d[k] = v`: overwrite in place, else append. -/
def dictInsert : AList → Int → Assignment → AList
  | [], k, v => [(k, v)]
  | (k2, v2) :: rest, k, v =>
      if k = k2 then (k2, v) :: rest else (k2, v2) :: dictInsert rest k v

/-- Dict update `a.update(b)`: insert `b`'s pairs into `a` in order. -/
def dictUpdate (a : AList) : AList → AList
  | [] => a
  | (k, v) :: rest => dictUpdate (dictInsert a k v) rest

/-- The key list of a mapping (`d.keys()`). -/
def dictKeys (l : AList) : List Int := l.map Prod.fst

/-- A partial assignment, from `instance.Certificate` (instance.py lines
12-110).  `assignments` is the `self.assignments` dict. -/
structure Certificate where
  num_vars : Int
  assignments : AList
deriving DecidableEq

/-- `Certificate.__init__` (instance.py lines 13-31): requires a positive
variable count, rejects non-positive keys, and silently drops pairs whose
value is `unassigned`. -/
def Certificate.init (num_vars : Int) (assignments : AList) :
    Except String Certificate :=
  if num_vars ≤ 0 then
    .error "must have a positive number of variables"
  else if assignments.any (fun p => decide (p.1 ≤ 0)) then
    .error "assignments can only be made for variables, and all variables must be positive integers."
  else
    .ok ⟨num_vars, assignments.filter (fun p => p.2 ≠ Assignment.unassigned)⟩

/-- The non-raising part of `Certificate.get` (instance.py lines 81-91):
look the variable up, inverting the stored value for a negative literal. -/
def Certificate.getA (c : Certificate) (literal : Int) : Assignment :=
  match dictGet c.assignments (abs literal) with
  | some a => if literal > 0 then a else a.inverse
  | none => Assignment.unassigned

/-- `Certificate.get` (instance.py lines 81-91): rejects literal 0, then
behaves as `getA`. -/
def Certificate.get (c : Certificate) (literal : Int) :
    Except String Assignment :=
  if literal = 0 then .error "0 is not a valid literal."
  else .ok (c.getA literal)

/-- `Certificate.insert_pair` (instance.py lines 57-71).  The result is the
certificate after the call (the dict is mutated in place in Python) paired
with the raised error, if any.  Note the source inserts the pair first when
the variable is absent and only then compares against the (now present)
stored value, so a conflict can only be raised when the variable was
already present, in which case the dict was not touched.  (`v` stands for
the source's `variable` parameter, a Lean keyword.) -/
def Certificate.insert_pair (c : Certificate) (v : Int)
    (assignment : Assignment) : Certificate × Option String :=
  if ¬ v > 0 then
    (c, some "Variables must be positive integers.")
  else if assignment = Assignment.unassigned then
    (c, none)
  else
    let assignments :=
      if (dictGet c.assignments v).isNone then
        dictInsert c.assignments v assignment
      else c.assignments
    let old := (dictGet assignments v).getD Assignment.unassigned
    if assignment = old then
      ({ c with assignments := assignments }, none)
    else
      ({ c with assignments := assignments },
        some ("tried to insert a conflicting assignment: "
          ++ toString v ++ " was assigned " ++ old.str))

/-- `Certificate.insert` (instance.py lines 73-79). -/
def Certificate.insert (c : Certificate) (literal : Int) :
    Certificate × Option String :=
  if literal = 0 then (c, some "0 is not a valid literal.")
  else
    c.insert_pair (abs literal)
      (if literal > 0 then Assignment.true else Assignment.false)

/-- `Certificate.is_compatible` (instance.py lines 93-102): every variable
assigned in both certificates must resolve to the same value under `get`.
The Python loop runs over the set intersection of the key sets; `List.all`
over the first key list, skipping keys absent from the other mapping, is
the same test (set de-duplication and order cannot change an `all`).
`get` is called on dict keys, which are nonzero for every certificate the
constructor accepts, so `getA` coincides with it here. -/
def Certificate.is_compatible (c other : Certificate) : Bool :=
  (dictKeys c.assignments).all fun v =>
    match dictGet other.assignments v with
    | none => Bool.true
    | some _ => decide (c.getA v = other.getA v)

/-- `Certificate.merge` (instance.py lines 104-110): on compatibility,
overlay `other`'s mapping on a copy of `c`'s and rebuild through the
(raising) constructor with `c`'s own `num_vars`; otherwise `None`. -/
def Certificate.merge (c other : Certificate) :
    Except String (Option Certificate) :=
  if c.is_compatible other then
    (Certificate.init c.num_vars
      (dictUpdate c.assignments other.assignments)).map some
  else .ok none

/-- `Certificate.copy` (instance.py lines 53-55): copy the dict and rebuild
through the constructor. -/
def Certificate.copy (c : Certificate) : Except String Certificate :=
  Certificate.init c.num_vars c.assignments

/-- The representation invariant `Certificate.__init__` establishes on the
mapping: positive keys, and `unassigned` never stored. -/
def Certificate.Inv (c : Certificate) : Prop :=
  ∀ p ∈ c.assignments, 0 < p.1 ∧ p.2 ≠ Assignment.unassigned

/-- Full well-formedness of a constructible certificate: positive variable
count, mapping invariant, and dict keys unique (a Python dict cannot hold a
key twice). -/
def Certificate.WF (c : Certificate) : Prop :=
  0 < c.num_vars ∧ c.Inv ∧ (dictKeys c.assignments).Nodup

/-- What certificate merging needs in order not to raise: a positive
variable count and positive keys. -/
def CertOk (c : Certificate) : Prop :=
  0 < c.num_vars ∧ ∀ p ∈ c.assignments, 0 < p.1

/-- A clause, from `instance._Clause` (instance.py lines 113-166).
`remLiterals` embeds `partial_literals`, the literals not yet resolved. -/
structure Clause where
  literals : List Int
  num_vars : Int
  remLiterals : List Int
deriving DecidableEq

/-- `_Clause.__init__` (instance.py lines 114-129): requires a positive
variable count; the partial list defaults to the full literal list. -/
def Clause.init (literals : List Int) (num_vars : Int)
    (rem : Option (List Int)) : Except String Clause :=
  if num_vars ≤ 0 then .error "must have a positive number of variables"
  else .ok ⟨literals, num_vars, rem.getD literals⟩

/-- `_Clause.copy` (instance.py lines 143-146): rebuild through the
constructor from copies of both literal lists. -/
def Clause.copy (c : Clause) : Except String Clause :=
  Clause.init c.literals c.num_vars (some c.remLiterals)

/-- The `Union[bool, Literals]` return type of `_Clause.apply`. -/
inductive ApplyRes where
  | bool (b : Bool)
  | lits (ls : List Int)
deriving DecidableEq

/-- The loop of `_Clause.apply` (instance.py lines 148-158): `acc` is the
`partial_literals` list being accumulated. -/
def applyGo (cert : Certificate) : List Int → List Int →
    Except String ApplyRes
  | [], acc => .ok (.lits acc)
  | l :: rest, acc =>
    match cert.get l with
    | .error e => .error e
    | .ok .true => .ok (.bool Bool.true)
    | .ok .false => applyGo cert rest acc
    | .ok .unassigned => applyGo cert rest (acc ++ [l])

/-- `_Clause.apply` (instance.py lines 148-158): scan the current partial
literals; `True` as soon as one is satisfied, else the list of retained
(unassigned) literals — note the source returns that list even when it is
empty. -/
def Clause.apply (cl : Clause) (cert : Certificate) :
    Except String ApplyRes :=
  applyGo cert cl.remLiterals []

/-- The loop of `_Clause.solve` (instance.py lines 160-166): one fresh
certificate per current literal, holding just that literal. -/
def solveGo (num_vars : Int) : List Int → Except String (List Certificate)
  | [] => .ok []
  | l :: rest =>
    match Certificate.init num_vars [] with
    | .error e => .error e
    | .ok c =>
      match c.insert l with
      | (_, some e) => .error e
      | (c2, none) =>
        match solveGo num_vars rest with
        | .error e => .error e
        | .ok certs => .ok (c2 :: certs)

/-- `_Clause.solve` (instance.py lines 160-166). -/
def Clause.solveC (cl : Clause) : Except String (List Certificate) :=
  solveGo cl.num_vars cl.remLiterals

/-- `Instance.recalculate_partial_size` (instance.py lines 197-206):
`k` = maximum clause width, `m` = number of distinct referenced variables,
`n` = number of clauses.  `max` over an empty sequence raises. -/
def instSize (clauses : List Clause) : Except String (Nat × Nat × Nat) :=
  match clauses with
  | [] => .error "max() arg is an empty sequence"
  | c :: cs =>
    .ok ((cs.map (fun cl => cl.literals.length)).foldl max c.literals.length,
      ((clauses.map (fun cl => cl.literals.map abs)).flatten).dedup.length,
      clauses.length)

/-- A solver instance, from `instance.Instance` (instance.py lines
169-355).  `remClauses` embeds `partial_clauses`.  The unfinished hooks
(`_extend_common`, `_cascade`, `_partition`) and the file I/O methods are
out of the claims' scope and are not embedded.  The `left`/`right` fields
are only ever written by the unimplemented `_partition`, so they are
omitted. -/
structure Inst where
  clauses : List Clause
  remClauses : List Clause
  certificates : List Certificate
  size : Nat × Nat × Nat
deriving DecidableEq

/-- `Instance.__init__` (instance.py lines 170-195): the partial clauses
default to copies of the clauses (the copy re-runs the raising `_Clause`
constructor), the certificate list defaults to empty, and the size
descriptor is computed from the clause list. -/
def Inst.init (clauses : List Clause) (remC : Option (List Clause))
    (certs : Option (List Certificate)) : Except String Inst :=
  match (match remC with
         | none => clauses.mapM Clause.copy
         | some r => .ok r) with
  | .error e => .error e
  | .ok rc =>
    match instSize clauses with
    | .error e => .error e
    | .ok sz => .ok ⟨clauses, rc, certs.getD [], sz⟩

/-- An instance constructed from a clause list only, the clauses all built
from plain literal lists against one declared variable count — the shape
`Instance.read` and the tests construct (`Instance([_Clause(ls, nv), ...])`). -/
def Inst.fromClauses (litLists : List (List Int)) (num_vars : Int) :
    Except String Inst :=
  match litLists.mapM (fun ls => Clause.init ls num_vars none) with
  | .error e => .error e
  | .ok cls => Inst.init cls none none

/-- Inner loop of `Instance._merge` (instance.py lines 293-299) for one
left certificate: try every right certificate, keeping the successful
merges.  The Python code accumulates into a `set`, but `Certificate`
defines `__hash__` without `__eq__`, so set membership falls back to
object identity; every successful `Certificate.merge` is a brand-new
object, hence the set keeps one element per successful pair and never
de-duplicates by value.  The set is therefore embedded as the list of
successful merges (its iteration order is unspecified in Python; no
observable result below depends on the order, only on the multiset). -/
def mergeOne (l : Certificate) : List Certificate → List Certificate →
    Except String (List Certificate)
  | [], acc => .ok acc
  | r :: rest, acc =>
    match l.merge r with
    | .error e => .error e
    | .ok none => mergeOne l rest acc
    | .ok (some c) => mergeOne l rest (acc ++ [c])

/-- The certificate cross product of `Instance._merge` (instance.py lines
292-299). -/
def mergeCerts : List Certificate → List Certificate → List Certificate →
    Except String (List Certificate)
  | [], _, acc => .ok acc
  | l :: rest, rights, acc =>
    match mergeOne l rights acc with
    | .error e => .error e
    | .ok acc2 => mergeCerts rest rights acc2

/-- `Instance._merge` (instance.py lines 291-314): `none` (Python `False`)
when no pair of certificates merges; otherwise a new instance holding
copies of both clause lists and the merged certificates. -/
def Inst.mergeI (a b : Inst) : Except String (Option Inst) :=
  match mergeCerts a.certificates b.certificates [] with
  | .error e => .error e
  | .ok certs =>
    if certs.length > 0 then
      match (a.clauses ++ b.clauses).mapM Clause.copy with
      | .error e => .error e
      | .ok clauses =>
        match (a.remClauses ++ b.remClauses).mapM Clause.copy with
        | .error e => .error e
        | .ok remC =>
          match Inst.init clauses (some remC) (some certs) with
          | .error e => .error e
          | .ok i => .ok (some i)
    else
      .ok none

/-- The batching loop of `Instance.solve` (instance.py lines 321-331).
Python pops sub-instances off the end of `instances`, so the caller passes
the leaf list reversed; `accHead` is `new_instances[-1]` and `accRest` the
earlier accumulators, most recent first (so `new_instances` in list order
is `(accHead :: accRest).reverse`).  `none` embeds the `return False`
taken when a merge reports no result. -/
def batchLoop : List Inst → Inst → List Inst →
    Except String (Option (List Inst))
  | [], accHead, accRest => .ok (some ((accHead :: accRest).reverse))
  | top :: stack, accHead, accRest =>
    if accHead.certificates.length < 10000 then
      match Inst.mergeI accHead top with
      | .error e => .error e
      | .ok (some m) => batchLoop stack m accRest
      | .ok none => .ok none
    else
      batchLoop stack top (accHead :: accRest)

/-- One tournament round of `Instance.solve` (instance.py lines 338-346):
merge adjacent pairs in order, stop at the first failed merge (`none`),
and carry an odd instance out unmerged at the end. -/
def pairRound : List Inst → Except String (Option (List Inst))
  | a :: b :: rest =>
    match Inst.mergeI a b with
    | .error e => .error e
    | .ok (some m) =>
      match pairRound rest with
      | .error e => .error e
      | .ok (some tail) => .ok (some (m :: tail))
      | .ok none => .ok none
    | .ok none => .ok none
  | rest => .ok (some rest)

/-- A successful tournament round over at least two sub-instances shrinks
the list: its output has `(n + 1) / 2` entries.  (Stated as a `def` so the
`tournament` loop below can use it for termination.) -/
def pairRound_ok_length : ∀ (l next : List Inst),
    pairRound l = Except.ok (some next) → next.length = (l.length + 1) / 2
  | [], next, h => by
    simp only [pairRound, Except.ok.injEq, Option.some.injEq] at h
    subst h; rfl
  | [x], next, h => by
    simp only [pairRound, Except.ok.injEq, Option.some.injEq] at h
    subst h; simp
  | a :: b :: rest, next, h => by
    rw [pairRound] at h
    rcases hm : Inst.mergeI a b with e | o <;> rw [hm] at h
    · exact Except.noConfusion h
    · rcases o with _ | m
      · simp at h
      · rcases hp : pairRound rest with e2 | o2 <;> rw [hp] at h
        · exact Except.noConfusion h
        · rcases o2 with _ | tail
          · simp at h
          · simp only [Except.ok.injEq, Option.some.injEq] at h
            subst h
            have ih := pairRound_ok_length rest tail hp
            simp only [List.length_cons, ih]
            omega

/-- The tournament loop of `Instance.solve` (instance.py lines 333-350),
ending with `instances[0]` (indexing an empty list raises, though the loop
never produces one).  Terminates because every completed round shrinks the
list (`pairRound_ok_length`). -/
def tournament (instances : List Inst) : Except String (Option Inst) :=
  if h : 1 < instances.length then
    match h2 : pairRound instances with
    | .ok (some next) => tournament next
    | .ok none => .ok none
    | .error e => .error e
  else
    match instances with
    | [] => .error "list index out of range"
    | x :: _ => .ok (some x)
termination_by instances.length
decreasing_by
  have := pairRound_ok_length instances next h2
  omega

/-- Line 317 of `Instance.solve`: one singleton sub-instance per partial
clause, built from a copy of it through the `Instance` constructor. -/
def Inst.leafInstances (inst : Inst) : Except String (List Inst) :=
  inst.remClauses.mapM fun c =>
    match Clause.copy c with
    | .error e => .error e
    | .ok cc => Inst.init [cc] none none

/-- Lines 318-319 of `Instance.solve`: set each leaf's certificate list to
its single clause's `solve()` output. -/
def Inst.leafSolve (li : Inst) : Except String Inst :=
  match li.clauses with
  | [] => .error "list index out of range"
  | c0 :: _ =>
    match c0.solveC with
    | .error e => .error e
    | .ok certs => .ok { li with certificates := certs }

/-- `Instance.solve` (instance.py lines 316-350).  Returns the Python
return value paired with `self` after the call: `self.certificates` is
only reassigned on the path that survives both loops; the two `return
False` branches leave it untouched.  (The progress `print` on line 336 is
I/O with no effect on the result and is not embedded.) -/
def Inst.solve (inst : Inst) : Except String (Bool × Inst) :=
  match inst.leafInstances with
  | .error e => .error e
  | .ok instances0 =>
    match instances0.mapM Inst.leafSolve with
    | .error e => .error e
    | .ok instances1 =>
      match instances1.reverse with
      | [] => .error "pop from empty list"
      | first :: rest =>
        match batchLoop rest first [] with
        | .error e => .error e
        | .ok none => .ok (Bool.false, inst)
        | .ok (some batched) =>
          match tournament batched with
          | .error e => .error e
          | .ok none => .ok (Bool.false, inst)
          | .ok (some survivor) =>
            .ok (decide (0 < survivor.certificates.length),
              { inst with certificates := survivor.certificates })

/-- `Instance.num_solutions` (instance.py lines 352-355): each certificate
stands for `2^(m - |assignments|)` total assignments, `m` being the
instance's distinct-variable count `size[1]`.  (In every state `solve`
produces, a certificate never assigns more than `m` variables, so the
natural subtraction agrees with the source's integer one.) -/
def Inst.num_solutions (i : Inst) : Nat :=
  (i.certificates.map
    (fun c => 2 ^ (i.size.2.1 - c.assignments.length))).sum

/-- What the solve pipeline needs of a sub-instance in order for merging
never to raise: positive clause variable counts, a nonempty clause list,
and mergeable certificates. -/
def InstOk (i : Inst) : Prop :=
  (∀ cl ∈ i.clauses, 0 < cl.num_vars) ∧
  (∀ cl ∈ i.remClauses, 0 < cl.num_vars) ∧
  (∀ c ∈ i.certificates, CertOk c) ∧
  i.clauses ≠ []

/-- Substring test (used to reason about which data an error message
names): `needle` occurs contiguously somewhere in `hay`. -/
def strContains (hay needle : String) : Bool :=
  (List.range (hay.toList.length + 1)).any fun i =>
    decide ((hay.toList.drop i).take needle.toList.length = needle.toList)

instance (c : Certificate) : Decidable c.Inv := by
  unfold Certificate.Inv; infer_instance

instance (c : Certificate) : Decidable c.WF := by
  unfold Certificate.WF Certificate.Inv; infer_instance

instance (c : Certificate) : Decidable (CertOk c) := by
  unfold CertOk; infer_instance

instance (i : Inst) : Decidable (InstOk i) := by
  unfold InstOk CertOk; infer_instance

/-- Concrete run of `solve` on `[[1,2],[-1,2]]` with 2 declared variables:
the instance itself, its two leaf sub-instances before and after their
per-clause `solve()`, and the single batched merge result. -/
def c5I : Inst :=
  ⟨[⟨[1, 2], 2, [1, 2]⟩, ⟨[-1, 2], 2, [-1, 2]⟩],
    [⟨[1, 2], 2, [1, 2]⟩, ⟨[-1, 2], 2, [-1, 2]⟩], [], (2, 2, 2)⟩

def c5L1 : Inst :=
  ⟨[⟨[1, 2], 2, [1, 2]⟩], [⟨[1, 2], 2, [1, 2]⟩], [], (2, 2, 1)⟩

def c5L2 : Inst :=
  ⟨[⟨[-1, 2], 2, [-1, 2]⟩], [⟨[-1, 2], 2, [-1, 2]⟩], [], (2, 2, 1)⟩

def c5L1s : Inst :=
  ⟨[⟨[1, 2], 2, [1, 2]⟩], [⟨[1, 2], 2, [1, 2]⟩],
    [⟨2, [(1, Assignment.true)]⟩, ⟨2, [(2, Assignment.true)]⟩], (2, 2, 1)⟩

def c5L2s : Inst :=
  ⟨[⟨[-1, 2], 2, [-1, 2]⟩], [⟨[-1, 2], 2, [-1, 2]⟩],
    [⟨2, [(1, Assignment.false)]⟩, ⟨2, [(2, Assignment.true)]⟩], (2, 2, 1)⟩

def c5M : Inst :=
  ⟨[⟨[-1, 2], 2, [-1, 2]⟩, ⟨[1, 2], 2, [1, 2]⟩],
    [⟨[-1, 2], 2, [-1, 2]⟩, ⟨[1, 2], 2, [1, 2]⟩],
    [⟨2, [(1, Assignment.false), (2, Assignment.true)]⟩,
      ⟨2, [(2, Assignment.true), (1, Assignment.true)]⟩,
      ⟨2, [(2, Assignment.true)]⟩], (2, 2, 2)⟩

/-- Concrete run of `solve` on `[[1],[-1]]` with one declared variable:
the instance and its leaves before and after their per-clause `solve()`. -/
def c3I : Inst :=
  ⟨[⟨[1], 1, [1]⟩, ⟨[-1], 1, [-1]⟩],
    [⟨[1], 1, [1]⟩, ⟨[-1], 1, [-1]⟩], [], (1, 1, 2)⟩

def c3L1 : Inst := ⟨[⟨[1], 1, [1]⟩], [⟨[1], 1, [1]⟩], [], (1, 1, 1)⟩

def c3L2 : Inst := ⟨[⟨[-1], 1, [-1]⟩], [⟨[-1], 1, [-1]⟩], [], (1, 1, 1)⟩

def c3L1s : Inst :=
  ⟨[⟨[1], 1, [1]⟩], [⟨[1], 1, [1]⟩],
    [⟨1, [(1, Assignment.true)]⟩], (1, 1, 1)⟩

def c3L2s : Inst :=
  ⟨[⟨[-1], 1, [-1]⟩], [⟨[-1], 1, [-1]⟩],
    [⟨1, [(1, Assignment.false)]⟩], (1, 1, 1)⟩

/-- The instance built from `[[1],[]]` with one declared variable (C4
witness input): a unit clause plus an empty clause. -/
def c4I : Inst :=
  ⟨[⟨[1], 1, [1]⟩, ⟨[], 1, []⟩], [⟨[1], 1, [1]⟩, ⟨[], 1, []⟩], [], (1, 1, 2)⟩

/-! ## Theorems -/

/-- Sanity: small concrete evaluations of the embedded primitives. -/
theorem sanity_checks :
    Certificate.init 2 [(1, Assignment.true), (2, Assignment.unassigned)]
      = .ok ⟨2, [(1, Assignment.true)]⟩ ∧
    (Certificate.mk 2 [(1, Assignment.true)]).get (-1)
      = .ok Assignment.false ∧
    Clause.apply ⟨[1, -2, 3], 3, [1, -2, 3]⟩ ⟨3, [(2, Assignment.true)]⟩
      = .ok (.lits [1, 3]) ∧
    Clause.apply ⟨[1, -2, 3], 3, [1, -2, 3]⟩ ⟨3, [(1, Assignment.true)]⟩
      = .ok (.bool Bool.true) ∧
    Clause.solveC ⟨[1, 2], 2, [1, 2]⟩
      = .ok [⟨2, [(1, Assignment.true)]⟩, ⟨2, [(2, Assignment.true)]⟩] := by
  refine ⟨rfl, rfl, rfl, rfl, rfl⟩

/-! ### Dictionary lemmas -/

theorem dictGet_insert (l : AList) (k : Int) (v : Assignment) (k2 : Int) :
    dictGet (dictInsert l k v) k2
      = if k2 = k then some v else dictGet l k2 := by
  induction l with
  | nil => simp [dictGet, dictInsert]
  | cons p rest ih =>
    obtain ⟨k3, v3⟩ := p
    by_cases h3 : k = k3
    · subst h3
      simp only [dictInsert, if_pos rfl, dictGet]
      by_cases h2 : k2 = k <;> simp [h2]
    · simp only [dictInsert, if_neg h3, dictGet, ih]
      split_ifs <;> first | rfl | (exfalso; omega)

theorem mem_dictInsert (l : AList) (k : Int) (v : Assignment)
    (q : Int × Assignment) (h : q ∈ dictInsert l k v) : q ∈ l ∨ q = (k, v) := by
  induction l with
  | nil =>
    simp only [dictInsert, List.mem_singleton] at h
    exact Or.inr h
  | cons p rest ih =>
    obtain ⟨k3, v3⟩ := p
    simp only [dictInsert] at h
    by_cases h3 : k = k3
    · rw [if_pos h3] at h
      rcases List.mem_cons.mp h with h1 | h1
      · right; rw [h1, h3]
      · left; exact List.mem_cons_of_mem _ h1
    · rw [if_neg h3] at h
      rcases List.mem_cons.mp h with h1 | h1
      · left; rw [h1]; exact List.mem_cons_self _ _
      · rcases ih h1 with h2 | h2
        · left; exact List.mem_cons_of_mem _ h2
        · right; exact h2

theorem mem_dictUpdate (a b : AList) (q : Int × Assignment)
    (h : q ∈ dictUpdate a b) : q ∈ a ∨ q ∈ b := by
  induction b generalizing a with
  | nil => exact Or.inl h
  | cons p rest ih =>
    obtain ⟨k, v⟩ := p
    simp only [dictUpdate] at h
    rcases ih (dictInsert a k v) h with h2 | h2
    · rcases mem_dictInsert a k v q h2 with h3 | h3
      · exact Or.inl h3
      · right; simp [h3]
    · right; simp [h2]

theorem dictGet_mem (l : AList) (v : Int) (x : Assignment)
    (h : dictGet l v = some x) : (v, x) ∈ l := by
  induction l with
  | nil => simp [dictGet] at h
  | cons p rest ih =>
    obtain ⟨k, y⟩ := p
    simp only [dictGet] at h
    by_cases hv : v = k
    · rw [if_pos hv] at h
      subst hv
      simp only [Option.some.injEq] at h
      subst h
      exact List.mem_cons_self _ _
    · rw [if_neg hv] at h
      exact List.mem_cons_of_mem _ (ih h)

theorem dictGet_update (a b : AList) (hb : (dictKeys b).Nodup) (v : Int) :
    dictGet (dictUpdate a b) v
      = match dictGet b v with
        | some x => some x
        | none => dictGet a v := by
  induction b generalizing a with
  | nil => simp [dictUpdate, dictGet]
  | cons p rest ih =>
    obtain ⟨k, x⟩ := p
    simp only [dictKeys, List.map_cons, List.nodup_cons] at hb
    simp only [dictUpdate, dictGet]
    rw [ih (dictInsert a k x) hb.2]
    by_cases hv : v = k
    · subst hv
      have hnone : dictGet rest v = none := by
        cases hg : dictGet rest v with
        | none => rfl
        | some y =>
          exact absurd
            (by simpa [dictKeys] using
              List.mem_map_of_mem Prod.fst (dictGet_mem rest v y hg))
            hb.1
      rw [hnone, dictGet_insert]
      simp
    · rw [dictGet_insert, if_neg hv]
      simp [hv]

theorem dictGet_isSome_iff (l : AList) (v : Int) :
    (dictGet l v).isSome = true ↔ v ∈ dictKeys l := by
  induction l with
  | nil => simp [dictGet, dictKeys]
  | cons p rest ih =>
    obtain ⟨k, y⟩ := p
    simp only [dictGet, dictKeys, List.map_cons, List.mem_cons]
    by_cases hv : v = k
    · simp [hv]
    · simp only [if_neg hv]
      rw [ih]
      simp [dictKeys, hv]

theorem mem_filter_unassigned (l : AList)
    (h : ∀ p ∈ l, p.2 ≠ Assignment.unassigned) :
    l.filter (fun p => p.2 ≠ Assignment.unassigned) = l := by
  rw [List.filter_eq_self]
  intro p hp
  simpa using h p hp

/-! ### Certificate constructor and merge lemmas -/

/-- The constructor succeeds exactly on a positive variable count and
positive keys; the stored mapping is the input with `unassigned` pairs
dropped. -/
theorem Certificate.init_ok (nv : Int) (as : AList) (h1 : 0 < nv)
    (h2 : ∀ p ∈ as, 0 < p.1) :
    Certificate.init nv as
      = .ok ⟨nv, as.filter (fun p => p.2 ≠ Assignment.unassigned)⟩ := by
  have hany : as.any (fun p => decide (p.1 ≤ 0)) = Bool.false := by
    rw [List.any_eq_false]
    intro p hp
    have := h2 p hp
    simp only [decide_eq_true_eq]
    omega
  simp only [Certificate.init, hany, Bool.false_eq_true, if_false,
    if_neg (show ¬ nv ≤ 0 by omega)]

/-- Successful merge, explicitly: under the constructible-certificate
preconditions, a compatible merge returns the overlaid mapping rebuilt
with the left operand's `num_vars`. -/
theorem Certificate.merge_ok (A B : Certificate) (hA : 0 < A.num_vars)
    (hAk : ∀ p ∈ A.assignments, 0 < p.1)
    (hBk : ∀ p ∈ B.assignments, 0 < p.1)
    (hc : A.is_compatible B = Bool.true) :
    A.merge B = .ok (some ⟨A.num_vars,
      (dictUpdate A.assignments B.assignments).filter
        (fun p => p.2 ≠ Assignment.unassigned)⟩) := by
  have hkeys : ∀ p ∈ dictUpdate A.assignments B.assignments, 0 < p.1 := by
    intro p hp
    rcases mem_dictUpdate _ _ p hp with h | h
    · exact hAk p h
    · exact hBk p h
  simp [Certificate.merge, hc, Certificate.init_ok _ _ hA hkeys, Except.map]

/-! ### C1 -/

/-- C1 (code_bug evidence): a clause whose every current literal is false
under the certificate.  `_Clause.apply` returns the **empty literal list**
`Literals([])`, not the boolean sentinel `False` the claim (and
`Instance.apply`'s dead `return False` branch) expect: the embedded result
is the `lits` constructor, not the `bool` one. -/
theorem c1_falsified_clause_returns_empty_list :
    Clause.apply ⟨[1], 1, [1]⟩ ⟨1, [(1, Assignment.false)]⟩
      = .ok (.lits []) := rfl

/-! ### C6 -/

/-- C6 (code_bug evidence): the certificate collection `Instance._merge`
accumulates.  `Certificate` defines `__hash__` but not `__eq__`, so the
Python `set` compares by object identity and keeps every freshly merged
certificate.  Merging the certificate lists `[{1:T}, {2:T}]` and
`[{2:T}, {1:T}]` therefore yields four certificates, the first and the
fourth of which carry the identical mapping `{1:T, 2:T}` (their
association lists are permutations of one another, i.e. equal as dicts) —
nothing is de-duplicated by value. -/
theorem c6_merge_set_keeps_identical_mappings :
    mergeCerts [⟨2, [(1, Assignment.true)]⟩, ⟨2, [(2, Assignment.true)]⟩]
      [⟨2, [(2, Assignment.true)]⟩, ⟨2, [(1, Assignment.true)]⟩] []
    = .ok [⟨2, [(1, Assignment.true), (2, Assignment.true)]⟩,
           ⟨2, [(1, Assignment.true)]⟩,
           ⟨2, [(2, Assignment.true)]⟩,
           ⟨2, [(2, Assignment.true), (1, Assignment.true)]⟩]
    ∧ List.Perm [(1, Assignment.true), (2, Assignment.true)]
        [(2, Assignment.true), (1, Assignment.true)]
    ∧ dictGet [(1, Assignment.true), (2, Assignment.true)] 1
        = dictGet [(2, Assignment.true), (1, Assignment.true)] 1
    ∧ dictGet [(1, Assignment.true), (2, Assignment.true)] 2
        = dictGet [(2, Assignment.true), (1, Assignment.true)] 2 := by
  refine ⟨rfl, ?_, rfl, rfl⟩
  decide

/-! ### C7 (counterexample part) -/

/-- C7 counterexample: inserting `false` for variable 1 when `true` is
stored raises a conflict error whose message names the variable and the
**stored** value only — the newly attempted value (`Assignment.false`, in
any spelling) appears nowhere in it, contradicting the claim that the
error names *both* conflicting values. -/
theorem c7_conflict_message_lacks_new_value :
    (Certificate.insert_pair ⟨1, [(1, Assignment.true)]⟩ 1 Assignment.false).2
      = some "tried to insert a conflicting assignment: 1 was assigned Assignment.true"
    ∧ strContains
        "tried to insert a conflicting assignment: 1 was assigned Assignment.true"
        (Assignment.str Assignment.false) = Bool.false
    ∧ strContains
        "tried to insert a conflicting assignment: 1 was assigned Assignment.true"
        "false" = Bool.false
    ∧ strContains
        "tried to insert a conflicting assignment: 1 was assigned Assignment.true"
        "False" = Bool.false
    ∧ strContains
        "tried to insert a conflicting assignment: 1 was assigned Assignment.true"
        (toString (1 : Int)) = Bool.true
    ∧ strContains
        "tried to insert a conflicting assignment: 1 was assigned Assignment.true"
        (Assignment.str Assignment.true) = Bool.true := by
  refine ⟨rfl, by decide, by decide, by decide, by decide, by decide⟩

/-! ### C9 -/

/-- C9: `Certificate.get` is involutive under sign flip — for every
certificate and nonzero literal, `get(lit)` equals the inverse of
`get(-lit)` (with `inverse` as in `Assignment.inverse`, which fixes
`unassigned`). -/
theorem c9_get_involutive_under_sign_flip (c : Certificate) (lit : Int)
    (h : lit ≠ 0) :
    c.get lit = (c.get (-lit)).map Assignment.inverse := by
  have hne : -lit ≠ 0 := by omega
  unfold Certificate.get
  rw [if_neg h, if_neg hne]
  unfold Certificate.getA
  rw [abs_neg]
  cases hd : dictGet c.assignments (abs lit) with
  | none => simp [Except.map, Assignment.inverse]
  | some a =>
    rcases lt_trichotomy lit 0 with hl | hl | hl
    · have h1 : ¬ lit > 0 := by omega
      have h2 : -lit > 0 := by omega
      simp [h1, h2, Except.map]
    · exact absurd hl h
    · have h1 : lit > 0 := hl
      have h2 : ¬ -lit > 0 := by omega
      simp only [Except.map, if_pos h1, if_neg h2]
      cases a <;> rfl

/-- C9 witness: the theorem applied at the certificate `{1: true}` (with
two declared variables) and the literal `-1`. -/
theorem c9_get_involutive_witness :
    ((-1 : Int) ≠ 0)
    ∧ (Certificate.mk 2 [(1, Assignment.true)]).get (-1)
        = ((Certificate.mk 2 [(1, Assignment.true)]).get (-(-1))).map
            Assignment.inverse :=
  ⟨by decide,
    c9_get_involutive_under_sign_flip ⟨2, [(1, Assignment.true)]⟩ (-1)
      (by decide)⟩

/-! ### C10 -/

/-- C10: merging compatible certificates succeeds even when the two
operands disagree on `num_vars`, and the result always carries the *left*
operand's `num_vars` — the right operand's count is ignored and no error
is raised for the mismatch.  (The hypotheses are the representation
invariants `Certificate.__init__` enforces on any certificate that can
exist; nothing relates `A.num_vars` to `B.num_vars`.) -/
theorem c10_merge_keeps_left_num_vars (A B : Certificate)
    (hA : 0 < A.num_vars)
    (hAk : ∀ p ∈ A.assignments, 0 < p.1)
    (hBk : ∀ p ∈ B.assignments, 0 < p.1)
    (hc : A.is_compatible B = Bool.true) :
    ∃ c, A.merge B = .ok (some c) ∧ c.num_vars = A.num_vars :=
  ⟨_, Certificate.merge_ok A B hA hAk hBk hc, rfl⟩

/-- C10 witness: the theorem applied to `{1: true}` with `num_vars = 2`
and `{2: false}` with `num_vars = 5` — differing variable counts, disjoint
domains. -/
theorem c10_merge_keeps_left_num_vars_witness :
    (0 < (Certificate.mk 2 [(1, Assignment.true)]).num_vars)
    ∧ (Certificate.mk 2 [(1, Assignment.true)]).is_compatible
        (Certificate.mk 5 [(2, Assignment.false)]) = Bool.true
    ∧ ∃ c, (Certificate.mk 2 [(1, Assignment.true)]).merge
        (Certificate.mk 5 [(2, Assignment.false)]) = .ok (some c)
        ∧ c.num_vars = (Certificate.mk 2 [(1, Assignment.true)]).num_vars :=
  ⟨by decide, by decide,
    c10_merge_keeps_left_num_vars
      ⟨2, [(1, Assignment.true)]⟩ ⟨5, [(2, Assignment.false)]⟩
      (by decide) (by decide) (by decide) (by decide)⟩

/-! ### C2 -/

/-- For a positive key, `getA` answers exactly the stored value. -/
theorem getA_pos (c : Certificate) (v : Int) (x : Assignment) (hv : 0 < v)
    (hx : dictGet c.assignments v = some x) : c.getA v = x := by
  unfold Certificate.getA
  rw [abs_of_pos hv, hx]
  simp [hv]

/-- Compatibility means the stored values agree on every common key. -/
theorem is_compatible_stored (A B : Certificate)
    (hAk : ∀ p ∈ A.assignments, 0 < p.1)
    (hc : A.is_compatible B = Bool.true) :
    ∀ v x y, dictGet A.assignments v = some x →
      dictGet B.assignments v = some y → x = y := by
  intro v x y hx hy
  have hvA : v ∈ dictKeys A.assignments := by
    rw [← dictGet_isSome_iff, hx]; rfl
  have hall := (List.all_eq_true.mp hc) v hvA
  rw [hy] at hall
  simp only [decide_eq_true_eq] at hall
  have hvpos : 0 < v := by
    have := hAk (v, x) (dictGet_mem _ _ _ hx)
    simpa using this
  rw [getA_pos A v x hvpos hx, getA_pos B v y hvpos hy] at hall
  exact hall

/-- The certificate produced by a successful merge, with its mapping laid
bare: under the inputs' invariants, no pair of the overlaid mapping is
`unassigned`, so the constructor's filter is the identity. -/
theorem merge_ok_assignments (A B : Certificate) (hA : A.WF) (hB : B.WF)
    (hc : A.is_compatible B = Bool.true) :
    A.merge B = .ok (some ⟨A.num_vars,
      dictUpdate A.assignments B.assignments⟩) := by
  obtain ⟨hA1, hA2, hA3⟩ := hA
  obtain ⟨hB1, hB2, hB3⟩ := hB
  have h := Certificate.merge_ok A B hA1 (fun p hp => (hA2 p hp).1)
    (fun p hp => (hB2 p hp).1) hc
  rw [h]
  have : (dictUpdate A.assignments B.assignments).filter
      (fun p => p.2 ≠ Assignment.unassigned)
      = dictUpdate A.assignments B.assignments := by
    apply mem_filter_unassigned
    intro p hp
    rcases mem_dictUpdate _ _ p hp with h2 | h2
    · exact (hA2 p h2).2
    · exact (hB2 p h2).2
  rw [this]

/-- C2: `A.merge(B)` returns a certificate (rather than `None`) iff
`A.is_compatible(B)`; on success the result's domain is exactly the union
of the operands' domains, and the result stores `A`'s value at every
variable of `A`'s domain, `B`'s value at every variable of `B`'s domain.
The hypotheses are the invariants `Certificate.__init__` guarantees for
every certificate the program can build. -/
theorem c2_merge_iff_compatible (A B : Certificate) (hA : A.WF) (hB : B.WF) :
    ((∃ c, A.merge B = .ok (some c)) ↔ A.is_compatible B = Bool.true)
    ∧ ∀ c, A.merge B = .ok (some c) →
        (∀ v, (dictGet c.assignments v).isSome
            = ((dictGet A.assignments v).isSome
                || (dictGet B.assignments v).isSome))
        ∧ (∀ v x, dictGet A.assignments v = some x →
            dictGet c.assignments v = some x)
        ∧ (∀ v x, dictGet B.assignments v = some x →
            dictGet c.assignments v = some x) := by
  by_cases hc : A.is_compatible B = Bool.true
  · have hm := merge_ok_assignments A B hA hB hc
    obtain ⟨hA1, hA2, hA3⟩ := hA
    obtain ⟨hB1, hB2, hB3⟩ := hB
    refine ⟨⟨fun _ => hc, fun _ => ⟨_, hm⟩⟩, ?_⟩
    intro c hcm
    rw [hm] at hcm
    simp only [Except.ok.injEq, Option.some.injEq] at hcm
    subst hcm
    refine ⟨?_, ?_, ?_⟩
    · intro v
      rw [dictGet_update _ _ hB3 v]
      cases hbv : dictGet B.assignments v with
      | some y => simp
      | none => simp
    · intro v x hx
      rw [dictGet_update _ _ hB3 v]
      cases hbv : dictGet B.assignments v with
      | some y =>
        simp only []
        rw [is_compatible_stored A B (fun p hp => (hA2 p hp).1) hc v x y hx hbv]
      | none => simpa using hx
    · intro v x hx
      rw [dictGet_update _ _ hB3 v, hx]
  · have hcf : A.is_compatible B = Bool.false := by
      cases hb : A.is_compatible B
      · rfl
      · exact absurd hb hc
    have hm : A.merge B = .ok none := by
      simp [Certificate.merge, hcf]
    refine ⟨⟨?_, fun h2 => absurd h2 hc⟩, ?_⟩
    · rintro ⟨c, hcm⟩
      rw [hm] at hcm
      simp at hcm
    · intro c hcm
      rw [hm] at hcm
      simp at hcm

/-- C2 witness: the theorem applied to `{1: true}` and `{1: true, 2: false}`
(compatible, overlapping domains), with the instantiated conclusions
evaluated. -/
theorem c2_merge_iff_compatible_witness :
    (Certificate.mk 2 [(1, Assignment.true)]).WF
    ∧ (Certificate.mk 2 [(1, Assignment.true),
        (2, Assignment.false)]).WF
    ∧ (((∃ c, (Certificate.mk 2 [(1, Assignment.true)]).merge
          (Certificate.mk 2 [(1, Assignment.true), (2, Assignment.false)])
            = .ok (some c)) ↔
        (Certificate.mk 2 [(1, Assignment.true)]).is_compatible
          (Certificate.mk 2 [(1, Assignment.true), (2, Assignment.false)])
            = Bool.true)
      ∧ ∀ c, (Certificate.mk 2 [(1, Assignment.true)]).merge
          (Certificate.mk 2 [(1, Assignment.true), (2, Assignment.false)])
            = .ok (some c) →
          (∀ v, (dictGet c.assignments v).isSome
              = ((dictGet [(1, Assignment.true)] v).isSome
                  || (dictGet [(1, Assignment.true),
                        (2, Assignment.false)] v).isSome))
          ∧ (∀ v x, dictGet [(1, Assignment.true)] v = some x →
              dictGet c.assignments v = some x)
          ∧ (∀ v x, dictGet [(1, Assignment.true),
                (2, Assignment.false)] v = some x →
              dictGet c.assignments v = some x)) :=
  ⟨by decide, by decide,
    c2_merge_iff_compatible
      ⟨2, [(1, Assignment.true)]⟩
      ⟨2, [(1, Assignment.true), (2, Assignment.false)]⟩
      (by decide) (by decide)⟩

/-! ### C7 (amended part) -/

/-- `insert_pair` case: non-positive variable. -/
theorem insert_pair_nonpos (c : Certificate) (v : Int) (a : Assignment)
    (h : ¬ v > 0) :
    c.insert_pair v a = (c, some "Variables must be positive integers.") := by
  unfold Certificate.insert_pair
  rw [if_pos h]

/-- `insert_pair` case: inserting `unassigned` is a no-op. -/
theorem insert_pair_unassigned (c : Certificate) (v : Int) (h : v > 0) :
    c.insert_pair v Assignment.unassigned = (c, none) := by
  unfold Certificate.insert_pair
  rw [if_neg (not_not_intro h), if_pos rfl]

/-- `insert_pair` case: fresh variable — record it. -/
theorem insert_pair_new (c : Certificate) (v : Int) (a : Assignment)
    (hv : v > 0) (ha : a ≠ Assignment.unassigned)
    (hd : dictGet c.assignments v = none) :
    c.insert_pair v a
      = (⟨c.num_vars, dictInsert c.assignments v a⟩, none) := by
  unfold Certificate.insert_pair
  rw [if_neg (not_not_intro hv), if_neg ha]
  simp [hd, dictGet_insert]

/-- `insert_pair` case: variable present with the same value — no-op. -/
theorem insert_pair_same (c : Certificate) (v : Int) (a : Assignment)
    (hv : v > 0) (ha : a ≠ Assignment.unassigned)
    (hd : dictGet c.assignments v = some a) :
    c.insert_pair v a = (c, none) := by
  unfold Certificate.insert_pair
  rw [if_neg (not_not_intro hv), if_neg ha]
  simp [hd]

/-- `insert_pair` case: variable present with a different value —
conflict error naming the variable and the stored value, dict untouched. -/
theorem insert_pair_conflict (c : Certificate) (v : Int) (a old : Assignment)
    (hv : v > 0) (ha : a ≠ Assignment.unassigned)
    (hd : dictGet c.assignments v = some old) (hne : a ≠ old) :
    c.insert_pair v a
      = (c, some ("tried to insert a conflicting assignment: "
          ++ toString v ++ " was assigned " ++ old.str)) := by
  unfold Certificate.insert_pair
  rw [if_neg (not_not_intro hv), if_neg ha]
  simp [hd, hne]

/-- After a successful non-`unassigned` `insert_pair`, the variable is
stored with the inserted value. -/
theorem insert_pair_success_lookup (c : Certificate) (v : Int)
    (a : Assignment) (hv : v > 0) (ha : a ≠ Assignment.unassigned)
    (hok : (c.insert_pair v a).2 = none) :
    dictGet (c.insert_pair v a).1.assignments v = some a := by
  cases hd : dictGet c.assignments v with
  | none =>
    rw [insert_pair_new c v a hv ha hd]
    simp [dictGet_insert]
  | some old =>
    by_cases hao : a = old
    · subst hao
      rw [insert_pair_same c v a hv ha hd]
      exact hd
    · rw [insert_pair_conflict c v a old hv ha hd hao] at hok
      simp at hok

/-- C7, amended: `insert_pair` raises exactly when the variable is
non-positive or a non-`unassigned` value conflicts with a stored one; it
is a no-op for `unassigned` (positive variable) and for a repeated
identical value, so inserting the same literal twice is idempotent; every
failure leaves the mapping unchanged; and the conflict error message names
the variable and the *stored* value (the newly attempted value does not
appear in it — this last point is where the original claim overstated the
code, see `c7_conflict_message_lacks_new_value`). -/
theorem c7_insert_pair_amended :
    (∀ (c : Certificate) (v : Int) (a : Assignment),
      (c.insert_pair v a).2.isSome = Bool.true ↔
        (v ≤ 0 ∨ (a ≠ Assignment.unassigned ∧
          ∃ old, dictGet c.assignments v = some old ∧ old ≠ a)))
    ∧ (∀ (c : Certificate) (v : Int), 0 < v →
        c.insert_pair v Assignment.unassigned = (c, none))
    ∧ (∀ (c : Certificate) (v : Int) (a : Assignment), 0 < v →
        dictGet c.assignments v = some a →
        c.insert_pair v a = (c, none))
    ∧ (∀ (c c1 : Certificate) (lit : Int),
        c.insert lit = (c1, none) → c1.insert lit = (c1, none))
    ∧ (∀ (c : Certificate) (v : Int) (a : Assignment),
        (c.insert_pair v a).2.isSome = Bool.true →
        (c.insert_pair v a).1 = c)
    ∧ (∀ (c : Certificate) (v : Int) (a : Assignment) (m : String),
        0 < v → (c.insert_pair v a).2 = some m →
        a ≠ Assignment.unassigned ∧
        ∃ old, dictGet c.assignments v = some old ∧ old ≠ a ∧
          m = "tried to insert a conflicting assignment: "
            ++ toString v ++ " was assigned " ++ old.str) := by
  have key : ∀ (c : Certificate) (v : Int) (a : Assignment),
      (v ≤ 0 → c.insert_pair v a
        = (c, some "Variables must be positive integers."))
      ∧ (0 < v → a = Assignment.unassigned →
          c.insert_pair v a = (c, none))
      ∧ (0 < v → a ≠ Assignment.unassigned →
          dictGet c.assignments v = none →
          c.insert_pair v a
            = (⟨c.num_vars, dictInsert c.assignments v a⟩, none))
      ∧ (∀ old, 0 < v → a ≠ Assignment.unassigned →
          dictGet c.assignments v = some old → a = old →
          c.insert_pair v a = (c, none))
      ∧ (∀ old, 0 < v → a ≠ Assignment.unassigned →
          dictGet c.assignments v = some old → a ≠ old →
          c.insert_pair v a
            = (c, some ("tried to insert a conflicting assignment: "
                ++ toString v ++ " was assigned " ++ old.str))) := by
    intro c v a
    refine ⟨fun h => insert_pair_nonpos c v a (by omega), ?_, ?_, ?_, ?_⟩
    · rintro hv rfl; exact insert_pair_unassigned c v hv
    · intro hv ha hd; exact insert_pair_new c v a hv ha hd
    · rintro old hv ha hd rfl; exact insert_pair_same c v a hv ha hd
    · intro old hv ha hd hne; exact insert_pair_conflict c v a old hv ha hd hne
  refine ⟨?_, ?_, ?_, ?_, ?_, ?_⟩
  · intro c v a
    obtain ⟨k1, k2, k3, k4, k5⟩ := key c v a
    constructor
    · intro hs
      by_cases hv : v ≤ 0
      · exact Or.inl hv
      · right
        by_cases ha : a = Assignment.unassigned
        · rw [k2 (by omega) ha] at hs; simp at hs
        · refine ⟨ha, ?_⟩
          cases hd : dictGet c.assignments v with
          | none => rw [k3 (by omega) ha hd] at hs; simp at hs
          | some old =>
            by_cases hao : a = old
            · rw [k4 old (by omega) ha hd hao] at hs; simp at hs
            · exact ⟨old, rfl, fun h => hao h.symm⟩
    · rintro (hv | ⟨ha, old, hd, hne⟩)
      · rw [k1 hv]; rfl
      · by_cases hv : v ≤ 0
        · rw [k1 hv]; rfl
        · rw [k5 old (by omega) ha hd (fun h => hne h.symm)]; rfl
  · intro c v hv; exact insert_pair_unassigned c v hv
  · intro c v a hv hd
    by_cases ha : a = Assignment.unassigned
    · subst ha; exact insert_pair_unassigned c v hv
    · exact insert_pair_same c v a hv ha hd
  · intro c c1 lit h
    unfold Certificate.insert at h ⊢
    by_cases h0 : lit = 0
    · rw [if_pos h0] at h; simp at h
    · rw [if_neg h0] at h ⊢
      have hv : abs lit > 0 := by positivity
      have ha : (if lit > 0 then Assignment.true else Assignment.false)
          ≠ Assignment.unassigned := by
        by_cases hl : lit > 0 <;> simp [hl]
      have hsnd : (c.insert_pair (abs lit)
          (if lit > 0 then Assignment.true else Assignment.false)).2
            = none := by rw [h]
      have hfst := insert_pair_success_lookup c (abs lit)
        (if lit > 0 then Assignment.true else Assignment.false) hv ha hsnd
      rw [h] at hfst
      exact insert_pair_same c1 (abs lit) _ hv ha hfst
  · intro c v a hs
    by_cases hv : v ≤ 0
    · rw [insert_pair_nonpos c v a (by omega)]
    · by_cases ha : a = Assignment.unassigned
      · subst ha
        rw [insert_pair_unassigned c v (by omega)] at hs
        simp at hs
      · cases hd : dictGet c.assignments v with
        | none =>
          rw [insert_pair_new c v a (by omega) ha hd] at hs
          simp at hs
        | some old =>
          by_cases hao : a = old
          · subst hao
            rw [insert_pair_same c v a (by omega) ha hd] at hs
            simp at hs
          · rw [insert_pair_conflict c v a old (by omega) ha hd hao]
  · intro c v a m hv hs
    by_cases ha : a = Assignment.unassigned
    · subst ha
      rw [insert_pair_unassigned c v (by omega)] at hs
      simp at hs
    · refine ⟨ha, ?_⟩
      cases hd : dictGet c.assignments v with
      | none =>
        rw [insert_pair_new c v a (by omega) ha hd] at hs
        simp at hs
      | some old =>
        by_cases hao : a = old
        · subst hao
          rw [insert_pair_same c v a (by omega) ha hd] at hs
          simp at hs
        · rw [insert_pair_conflict c v a old (by omega) ha hd hao] at hs
          simp only [Option.some.injEq] at hs
          exact ⟨old, rfl, fun h => hao h.symm, hs.symm⟩

/-- C7 witness: the amended theorem instantiated at concrete inputs —
the error-iff at a conflicting insert, the `unassigned` no-op, the
idempotent repeat, and the conflict message shape. -/
theorem c7_insert_pair_amended_witness :
    ((Certificate.mk 1 [(1, Assignment.true)]).insert_pair 1
        Assignment.false).2.isSome = Bool.true
    ∧ (Certificate.mk 1 []).insert_pair 2 Assignment.unassigned
        = (Certificate.mk 1 [], none)
    ∧ (Certificate.mk 1 [(1, Assignment.true)]).insert_pair 1
        Assignment.true = (Certificate.mk 1 [(1, Assignment.true)], none)
    ∧ ((Certificate.mk 1 [(1, Assignment.true)]).insert_pair 1
        Assignment.false).1 = Certificate.mk 1 [(1, Assignment.true)] := by
  refine ⟨?_, ?_, ?_, ?_⟩
  · exact (c7_insert_pair_amended.1
      ⟨1, [(1, Assignment.true)]⟩ 1 Assignment.false).mpr
      (Or.inr ⟨by decide, Assignment.true, by decide, by decide⟩)
  · exact c7_insert_pair_amended.2.1 ⟨1, []⟩ 2 (by decide)
  · exact c7_insert_pair_amended.2.2.1 ⟨1, [(1, Assignment.true)]⟩ 1
      Assignment.true (by decide) (by decide)
  · exact c7_insert_pair_amended.2.2.2.2.1 ⟨1, [(1, Assignment.true)]⟩ 1
      Assignment.false (by decide)

/-! ### C8 -/

/-- `insert_pair` preserves the mapping invariant and is monotone: a
stored pair is never changed or removed. -/
theorem insert_pair_preserves (c : Certificate) (v : Int) (a : Assignment)
    (hInv : c.Inv) :
    (c.insert_pair v a).1.Inv
    ∧ (∀ w x, dictGet c.assignments w = some x →
        dictGet (c.insert_pair v a).1.assignments w = some x) := by
  by_cases hv : v > 0
  · by_cases ha : a = Assignment.unassigned
    · subst ha
      rw [insert_pair_unassigned c v hv]
      exact ⟨hInv, fun w x h => h⟩
    · cases hd : dictGet c.assignments v with
      | none =>
        rw [insert_pair_new c v a hv ha hd]
        constructor
        · intro p hp
          rcases mem_dictInsert _ _ _ p hp with h2 | h2
          · exact hInv p h2
          · subst h2; exact ⟨hv, ha⟩
        · intro w x hwx
          show dictGet (dictInsert c.assignments v a) w = some x
          rw [dictGet_insert]
          by_cases hwv : w = v
          · subst hwv; rw [hd] at hwx; cases hwx
          · rw [if_neg hwv]; exact hwx
      | some old =>
        by_cases hao : a = old
        · subst hao
          rw [insert_pair_same c v a hv ha hd]
          exact ⟨hInv, fun w x h => h⟩
        · rw [insert_pair_conflict c v a old hv ha hd hao]
          exact ⟨hInv, fun w x h => h⟩
  · rw [insert_pair_nonpos c v a hv]
    exact ⟨hInv, fun w x h => h⟩

/-- C8: every `Certificate` operation preserves the representation
invariant — keys positive, `unassigned` never stored — and never changes
or removes a value once present: construction establishes the invariant;
`insert_pair` and `insert` preserve it and extend the mapping
monotonically; a merged certificate satisfies it and extends both
operands; `copy` reproduces the certificate exactly. -/
theorem c8_certificate_operations_preserve_invariant :
    (∀ (nv : Int) (as : AList) (c : Certificate),
      Certificate.init nv as = .ok c → c.Inv)
    ∧ (∀ (c : Certificate) (v : Int) (a : Assignment), c.Inv →
        (c.insert_pair v a).1.Inv
        ∧ (∀ w x, dictGet c.assignments w = some x →
            dictGet (c.insert_pair v a).1.assignments w = some x))
    ∧ (∀ (c : Certificate) (lit : Int), c.Inv →
        (c.insert lit).1.Inv
        ∧ (∀ w x, dictGet c.assignments w = some x →
            dictGet (c.insert lit).1.assignments w = some x))
    ∧ (∀ (a b c : Certificate), a.WF → b.WF → a.merge b = .ok (some c) →
        c.Inv
        ∧ (∀ w x, dictGet a.assignments w = some x →
            dictGet c.assignments w = some x)
        ∧ (∀ w x, dictGet b.assignments w = some x →
            dictGet c.assignments w = some x))
    ∧ (∀ c : Certificate, c.Inv → 0 < c.num_vars → c.copy = .ok c) := by
  refine ⟨?_, ?_, ?_, ?_, ?_⟩
  · intro nv as c h
    unfold Certificate.init at h
    by_cases h1 : nv ≤ 0
    · rw [if_pos h1] at h; cases h
    · rw [if_neg h1] at h
      by_cases h2 : as.any (fun p => decide (p.1 ≤ 0)) = Bool.true
      · rw [if_pos h2] at h; cases h
      · rw [if_neg h2] at h
        simp only [Except.ok.injEq] at h
        subst h
        intro p hp
        simp only [List.mem_filter] at hp
        rw [Bool.not_eq_true, List.any_eq_false] at h2
        have hk := h2 p hp.1
        simp only [decide_eq_true_eq] at hk
        exact ⟨by omega, by simpa using hp.2⟩
  · exact fun c v a h => insert_pair_preserves c v a h
  · intro c lit hInv
    unfold Certificate.insert
    by_cases h0 : lit = 0
    · rw [if_pos h0]
      exact ⟨hInv, fun w x h => h⟩
    · rw [if_neg h0]
      exact insert_pair_preserves c (abs lit) _ hInv
  · intro a b c haWF hbWF hm
    obtain ⟨ha1, ha2, ha3⟩ := haWF
    obtain ⟨hb1, hb2, hb3⟩ := hbWF
    have hc : a.is_compatible b = Bool.true := by
      by_cases h : a.is_compatible b = Bool.true
      · exact h
      · have hcf : a.is_compatible b = Bool.false := by
          cases hb : a.is_compatible b
          · rfl
          · exact absurd hb h
        rw [show a.merge b = .ok none from by
          simp [Certificate.merge, hcf]] at hm
        cases hm
    have heq := merge_ok_assignments a b ⟨ha1, ha2, ha3⟩ ⟨hb1, hb2, hb3⟩ hc
    rw [heq] at hm
    simp only [Except.ok.injEq, Option.some.injEq] at hm
    subst hm
    refine ⟨?_, ?_, ?_⟩
    · intro p hp
      rcases mem_dictUpdate _ _ p hp with h2 | h2
      · exact ha2 p h2
      · exact hb2 p h2
    · intro w x hwx
      show dictGet (dictUpdate a.assignments b.assignments) w = some x
      rw [dictGet_update _ _ hb3 w]
      cases hbw : dictGet b.assignments w with
      | some y =>
        simp only []
        rw [is_compatible_stored a b (fun p hp => (ha2 p hp).1) hc w x y
          hwx hbw]
      | none => simpa using hwx
    · intro w x hwx
      show dictGet (dictUpdate a.assignments b.assignments) w = some x
      rw [dictGet_update _ _ hb3 w, hwx]
  · intro c hInv hnv
    unfold Certificate.copy
    rw [Certificate.init_ok _ _ hnv (fun p hp => (hInv p hp).1),
      mem_filter_unassigned _ (fun p hp => (hInv p hp).2)]

/-- C8 witness: each conjunct applied at a concrete certificate. -/
theorem c8_preserve_invariant_witness :
    (Certificate.mk 2 [(1, Assignment.true)]).Inv
    ∧ ((Certificate.mk 2 [(1, Assignment.true)]).insert_pair 2
        Assignment.false).1.Inv
    ∧ ((Certificate.mk 2 [(1, Assignment.true)]).insert (-2)).1.Inv
    ∧ (Certificate.mk 2
        [(1, Assignment.true), (2, Assignment.false)]).Inv
    ∧ (Certificate.mk 2 [(1, Assignment.true)]).copy
        = .ok (Certificate.mk 2 [(1, Assignment.true)]) :=
  ⟨c8_certificate_operations_preserve_invariant.1 2 [(1, Assignment.true)]
      ⟨2, [(1, Assignment.true)]⟩ rfl,
    (c8_certificate_operations_preserve_invariant.2.1
      ⟨2, [(1, Assignment.true)]⟩ 2 Assignment.false (by decide)).1,
    (c8_certificate_operations_preserve_invariant.2.2.1
      ⟨2, [(1, Assignment.true)]⟩ (-2) (by decide)).1,
    (c8_certificate_operations_preserve_invariant.2.2.2.1
      ⟨2, [(1, Assignment.true)]⟩ ⟨2, [(2, Assignment.false)]⟩
      ⟨2, [(1, Assignment.true), (2, Assignment.false)]⟩
      (by decide) (by decide) rfl).1,
    c8_certificate_operations_preserve_invariant.2.2.2.2
      ⟨2, [(1, Assignment.true)]⟩ (by decide) (by decide)⟩

/-! ### Evaluation lemmas for `Inst.solve` -/

/-- A tournament over a single sub-instance returns it unchanged. -/
theorem tournament_single (x : Inst) : tournament [x] = .ok (some x) := by
  unfold tournament
  simp

/-- `solve` along the path where the batching loop reports a failed merge:
Python's line 328 `return False`, leaving `self` untouched. -/
theorem solve_batchfail (inst : Inst) (i0 i1 : List Inst) (first : Inst)
    (rest : List Inst)
    (h0 : inst.leafInstances = .ok i0)
    (h1 : i0.mapM Inst.leafSolve = .ok i1)
    (h2 : i1.reverse = first :: rest)
    (h3 : batchLoop rest first [] = .ok none) :
    inst.solve = .ok (Bool.false, inst) := by
  unfold Inst.solve
  simp only [h0, h1, h2, h3]

/-- `solve` along the path where a tournament-round merge fails: Python's
line 344 `return False`, leaving `self` untouched. -/
theorem solve_tournfail (inst : Inst) (i0 i1 : List Inst) (first : Inst)
    (rest batched : List Inst)
    (h0 : inst.leafInstances = .ok i0)
    (h1 : i0.mapM Inst.leafSolve = .ok i1)
    (h2 : i1.reverse = first :: rest)
    (h3 : batchLoop rest first [] = .ok (some batched))
    (h4 : tournament batched = .ok none) :
    inst.solve = .ok (Bool.false, inst) := by
  unfold Inst.solve
  simp only [h0, h1, h2, h3, h4]

/-- `solve` along the surviving path: `self.certificates` is reassigned to
the survivor's and satisfiability is its non-emptiness. -/
theorem solve_success (inst : Inst) (i0 i1 : List Inst) (first : Inst)
    (rest batched : List Inst) (survivor : Inst)
    (h0 : inst.leafInstances = .ok i0)
    (h1 : i0.mapM Inst.leafSolve = .ok i1)
    (h2 : i1.reverse = first :: rest)
    (h3 : batchLoop rest first [] = .ok (some batched))
    (h4 : tournament batched = .ok (some survivor)) :
    inst.solve = .ok (decide (0 < survivor.certificates.length),
      { inst with certificates := survivor.certificates }) := by
  unfold Inst.solve
  simp only [h0, h1, h2, h3, h4]

/-- An instance built from a clause list only starts with no
certificates. -/
theorem Inst.init_certificates (clauses : List Clause)
    (remC : Option (List Clause)) (i : Inst)
    (h : Inst.init clauses remC none = .ok i) : i.certificates = [] := by
  unfold Inst.init at h
  cases h1 : (match remC with
      | none => clauses.mapM Clause.copy
      | some r => Except.ok r) with
  | error e => rw [h1] at h; cases h
  | ok rc =>
    rw [h1] at h
    cases h2 : instSize clauses with
    | error e => rw [h2] at h; cases h
    | ok sz =>
      rw [h2] at h
      simp only [Except.ok.injEq] at h
      subst h
      rfl

theorem fromClauses_certificates (lls : List (List Int)) (nv : Int)
    (inst : Inst) (h : Inst.fromClauses lls nv = .ok inst) :
    inst.certificates = [] := by
  unfold Inst.fromClauses at h
  cases hm : lls.mapM (fun ls => Clause.init ls nv none) with
  | error e => rw [hm] at h; cases h
  | ok cls => rw [hm] at h; exact Inst.init_certificates _ _ _ h

/-! ### C5 -/

/-- C5 counterexample: on the instance built from `[[1,2],[-1,2]]` with
two declared variables, `solve` reports satisfiable but `num_solutions`
evaluates to **4**, not `2^(m-1) = 2`: the three surviving certificates
`{1:F,2:T}`, `{2:T,1:T}`, `{2:T}` overlap in the total assignments they
cover, and the sum `2^(m-|assignments|)` counts the overlap twice. -/
theorem c5_num_solutions_counterexample :
    ((Inst.fromClauses [[1, 2], [-1, 2]] 2).bind Inst.solve).map
      (fun p => (p.1, p.2.num_solutions)) = .ok (Bool.true, 4)
    ∧ (Except.ok (Bool.true, (4 : Nat))
        : Except String (Bool × Nat)) ≠ .ok (Bool.true, 2) := by
  constructor
  · have h := solve_success c5I [c5L1, c5L2] [c5L1s, c5L2s] c5L2s [c5L1s]
      [c5M] c5M rfl rfl rfl rfl (tournament_single c5M)
    show (Inst.solve c5I).map
      (fun p => (p.1, p.2.num_solutions)) = .ok (Bool.true, 4)
    rw [h]
    rfl
  · intro h
    simp at h

/-- C5 amended: solving `[[1,2],[-1,2]]` (two variables) is satisfiable,
every surviving certificate assigns variable 2 `true` (hence every total
assignment consistent with any of them sets 2 true), and the reported
solution count — the sum over final certificates of
`2^(m - |assignments|)` — is 4, an overcount of the 2 satisfying total
assignments because the certificates' covered assignment spaces overlap
(as §9 of the spec itself warns). -/
theorem c5_solve_amended :
    ((Inst.fromClauses [[1, 2], [-1, 2]] 2).bind Inst.solve).map
      (fun p => (p.1, p.2.num_solutions,
        p.2.certificates.all (fun c => decide (c.getA 2 = Assignment.true)),
        p.2.certificates.length))
      = .ok (Bool.true, 4, Bool.true, 3) := by
  have h := solve_success c5I [c5L1, c5L2] [c5L1s, c5L2s] c5L2s [c5L1s]
    [c5M] c5M rfl rfl rfl rfl (tournament_single c5M)
  show (Inst.solve c5I).map
      (fun p => (p.1, p.2.num_solutions,
        p.2.certificates.all (fun c => decide (c.getA 2 = Assignment.true)),
        p.2.certificates.length))
      = .ok (Bool.true, 4, Bool.true, 3)
  rw [h]
  rfl

/-! ### C3 -/

/-- C3: for an instance constructed from a clause list only, whenever a
pairwise merge during `solve` produces an empty merged-certificate set —
i.e. the batching fold or a tournament round reports "no result" —
`solve` returns `False` right there without raising, and the instance
keeps its empty certificate list, so `num_solutions` is 0. -/
theorem c3_empty_merge_unsat (lls : List (List Int)) (nv : Int)
    (inst : Inst) (i0 i1 : List Inst) (first : Inst) (rest : List Inst)
    (hfc : Inst.fromClauses lls nv = .ok inst)
    (h0 : inst.leafInstances = .ok i0)
    (h1 : i0.mapM Inst.leafSolve = .ok i1)
    (h2 : i1.reverse = first :: rest)
    (hfail : batchLoop rest first [] = .ok none
      ∨ ∃ batched, batchLoop rest first [] = .ok (some batched)
          ∧ tournament batched = .ok none) :
    inst.solve = .ok (Bool.false, inst)
    ∧ inst.certificates = [] ∧ inst.num_solutions = 0 := by
  have hcerts := fromClauses_certificates lls nv inst hfc
  refine ⟨?_, hcerts, ?_⟩
  · rcases hfail with h3 | ⟨batched, h3, h4⟩
    · exact solve_batchfail inst i0 i1 first rest h0 h1 h2 h3
    · exact solve_tournfail inst i0 i1 first rest batched h0 h1 h2 h3 h4
  · simp [Inst.num_solutions, hcerts]

/-- C3 witness: the theorem applied to the instance built from
`[[1],[-1]]` (one variable); the single batching merge of `{1:F}` with
`{1:T}` is incompatible, yielding an empty merged set. -/
theorem c3_empty_merge_unsat_witness :
    c3I.solve = .ok (Bool.false, c3I)
    ∧ c3I.certificates = [] ∧ c3I.num_solutions = 0 :=
  c3_empty_merge_unsat [[1], [-1]] 1 c3I [c3L1, c3L2] [c3L1s, c3L2s]
    c3L2s [c3L1s] rfl rfl rfl rfl (Or.inl rfl)

/-! ### C4 -/

/-- Merging two constructible certificates never raises, and a merged
certificate is again mergeable. -/
theorem merge_certok (l r : Certificate) (hl : CertOk l) (hr : CertOk r) :
    ∃ o, l.merge r = .ok o ∧ ∀ m, o = some m → CertOk m := by
  by_cases hc : l.is_compatible r = Bool.true
  · refine ⟨_, Certificate.merge_ok l r hl.1 hl.2 hr.2 hc, ?_⟩
    intro m hm
    simp only [Option.some.injEq] at hm
    subst hm
    refine ⟨hl.1, ?_⟩
    intro p hp
    simp only [List.mem_filter] at hp
    rcases mem_dictUpdate _ _ p hp.1 with h2 | h2
    · exact hl.2 p h2
    · exact hr.2 p h2
  · have hcf : l.is_compatible r = Bool.false := by
      cases hb : l.is_compatible r
      · rfl
      · exact absurd hb hc
    refine ⟨none, by simp [Certificate.merge, hcf], ?_⟩
    intro m hm; cases hm

/-- The inner loop of `_merge` never raises over mergeable certificates;
it only ever appends to its accumulator, and appends nothing when there
are no right-hand certificates. -/
theorem mergeOne_ok (l : Certificate) : ∀ (rights acc : List Certificate),
    CertOk l → (∀ c ∈ rights, CertOk c) → (∀ c ∈ acc, CertOk c) →
    ∃ out, mergeOne l rights acc = .ok out ∧ (∀ c ∈ out, CertOk c)
      ∧ ∃ extra, out = acc ++ extra
  | [], acc => by
    intro _ _ hacc
    exact ⟨acc, rfl, hacc, [], by simp⟩
  | r :: rest, acc => by
    intro hl hr hacc
    obtain ⟨o, ho, hok⟩ := merge_certok l r hl (hr r (List.mem_cons_self _ _))
    have hr2 : ∀ c ∈ rest, CertOk c :=
      fun c hc => hr c (List.mem_cons_of_mem _ hc)
    have hstep : mergeOne l (r :: rest) acc
        = match l.merge r with
          | .error e => .error e
          | .ok none => mergeOne l rest acc
          | .ok (some c) => mergeOne l rest (acc ++ [c]) := rfl
    cases o with
    | none =>
      obtain ⟨out, hout, houtOk, extra, hext⟩ :=
        mergeOne_ok l rest acc hl hr2 hacc
      refine ⟨out, ?_, houtOk, extra, hext⟩
      rw [hstep, ho]
      exact hout
    | some m =>
      have hm := hok m rfl
      have hacc2 : ∀ c ∈ acc ++ [m], CertOk c := by
        intro c hc
        rcases List.mem_append.mp hc with h | h
        · exact hacc c h
        · simp only [List.mem_singleton] at h; subst h; exact hm
      obtain ⟨out, hout, houtOk, extra, hext⟩ :=
        mergeOne_ok l rest (acc ++ [m]) hl hr2 hacc2
      refine ⟨out, ?_, houtOk, m :: extra, by rw [hext]; simp⟩
      rw [hstep, ho]
      exact hout

/-- The certificate cross product of `_merge` never raises over mergeable
inputs, and is empty when either side has no certificates. -/
theorem mergeCerts_ok : ∀ (lefts rights acc : List Certificate),
    (∀ c ∈ lefts, CertOk c) → (∀ c ∈ rights, CertOk c) →
    (∀ c ∈ acc, CertOk c) →
    ∃ out, mergeCerts lefts rights acc = .ok out ∧ (∀ c ∈ out, CertOk c)
      ∧ ((lefts = [] ∨ rights = []) → out = acc)
  | [], rights, acc => by
    intro _ _ hacc
    exact ⟨acc, rfl, hacc, fun _ => rfl⟩
  | l :: rest, rights, acc => by
    intro hl hr hacc
    obtain ⟨acc2, hacc2eq, hacc2Ok, extra, hext⟩ :=
      mergeOne_ok l rights acc (hl l (List.mem_cons_self _ _)) hr hacc
    obtain ⟨out, hout, houtOk, hempty⟩ :=
      mergeCerts_ok rest rights acc2
        (fun c hc => hl c (List.mem_cons_of_mem _ hc)) hr hacc2Ok
    have hstep : mergeCerts (l :: rest) rights acc
        = match mergeOne l rights acc with
          | .error e => .error e
          | .ok acc2 => mergeCerts rest rights acc2 := rfl
    refine ⟨out, ?_, houtOk, ?_⟩
    · rw [hstep, hacc2eq]
      exact hout
    · rintro (h | h)
      · cases h
      · subst h
        have hone : mergeOne l [] acc = Except.ok acc := rfl
        have h2 : acc2 = acc := by
          have := hone.symm.trans hacc2eq
          simp only [Except.ok.injEq] at this
          exact this.symm
        subst h2
        exact hempty (Or.inr rfl)

/-- Copying a list of clauses with positive variable counts reproduces
it. -/
theorem mapM_copy_ok (cls : List Clause)
    (h : ∀ cl ∈ cls, 0 < cl.num_vars) : cls.mapM Clause.copy = .ok cls := by
  induction cls with
  | nil => rfl
  | cons c rest ih =>
    have hc : Clause.copy c = .ok c := by
      unfold Clause.copy Clause.init
      rw [if_neg (by have := h c (List.mem_cons_self _ _); omega)]
      rfl
    rw [List.mapM_cons, hc,
      ih (fun cl hcl => h cl (List.mem_cons_of_mem _ hcl))]
    rfl

/-- `Instance._merge` over well-formed sub-instances never raises: it
returns a well-formed merged instance with a nonempty certificate list, or
`False` — and necessarily `False` when either operand has no
certificates. -/
theorem mergeI_ok (a b : Inst) (ha : InstOk a) (hb : InstOk b) :
    ∃ r, Inst.mergeI a b = .ok r
      ∧ (∀ m, r = some m → InstOk m ∧ m.certificates ≠ [])
      ∧ ((a.certificates = [] ∨ b.certificates = []) → r = none) := by
  obtain ⟨ha1, ha2, ha3, ha4⟩ := ha
  obtain ⟨hb1, hb2, hb3, hb4⟩ := hb
  obtain ⟨out, hout, houtOk, hempty⟩ :=
    mergeCerts_ok a.certificates b.certificates [] ha3 hb3 (by simp)
  by_cases hlen : out.length > 0
  · have hcopyA : (a.clauses ++ b.clauses).mapM Clause.copy
        = .ok (a.clauses ++ b.clauses) := by
      apply mapM_copy_ok
      intro cl hcl
      rcases List.mem_append.mp hcl with h | h
      · exact ha1 cl h
      · exact hb1 cl h
    have hcopyR : (a.remClauses ++ b.remClauses).mapM Clause.copy
        = .ok (a.remClauses ++ b.remClauses) := by
      apply mapM_copy_ok
      intro cl hcl
      rcases List.mem_append.mp hcl with h | h
      · exact ha2 cl h
      · exact hb2 cl h
    obtain ⟨c0, cs0, hcs0⟩ : ∃ c0 cs0, a.clauses = c0 :: cs0 := by
      cases hac : a.clauses with
      | nil => exact absurd hac ha4
      | cons x xs => exact ⟨x, xs, rfl⟩
    obtain ⟨sz, hsz⟩ : ∃ sz, instSize (a.clauses ++ b.clauses) = .ok sz := by
      rw [hcs0]
      exact ⟨_, rfl⟩
    have hinit : Inst.init (a.clauses ++ b.clauses)
        (some (a.remClauses ++ b.remClauses)) (some out)
        = .ok ⟨a.clauses ++ b.clauses, a.remClauses ++ b.remClauses,
            out, sz⟩ := by
      unfold Inst.init
      rw [hsz]
      rfl
    refine ⟨some ⟨a.clauses ++ b.clauses, a.remClauses ++ b.remClauses,
      out, sz⟩, ?_, ?_, ?_⟩
    · simp only [Inst.mergeI, hout, hlen, if_true, hcopyA, hcopyR, hinit]
    · intro m hm
      simp only [Option.some.injEq] at hm
      subst hm
      refine ⟨⟨?_, ?_, houtOk, by simp [hcs0]⟩, ?_⟩
      · intro cl hcl
        rcases List.mem_append.mp hcl with h | h
        · exact ha1 cl h
        · exact hb1 cl h
      · intro cl hcl
        rcases List.mem_append.mp hcl with h | h
        · exact ha2 cl h
        · exact hb2 cl h
      · show out ≠ []
        intro h
        rw [h] at hlen
        simp at hlen
    · intro h
      have h0 := hempty h
      rw [h0] at hlen
      simp at hlen
  · have houtnil : out = [] := by
      cases out with
      | nil => rfl
      | cons x xs => simp at hlen
    refine ⟨none, ?_, ?_, fun _ => rfl⟩
    · simp only [Inst.mergeI, hout, houtnil]
      rfl
    · intro m hm; cases hm

/-- If some sub-instance still in play during the batching fold has an
empty certificate list, the fold either reports a failed merge (`none`)
or hands the tournament a list that still contains an empty-certificate
member — it can never make the emptiness disappear. -/
theorem batchLoop_empty_member : ∀ (stack : List Inst) (accHead : Inst)
    (accRest : List Inst),
    (∀ i ∈ stack, InstOk i) → InstOk accHead → (∀ i ∈ accRest, InstOk i) →
    (accHead.certificates = [] ∨ (∃ i ∈ stack, i.certificates = [])
      ∨ (∃ i ∈ accRest, i.certificates = [])) →
    ∃ r, batchLoop stack accHead accRest = .ok r
      ∧ (r = none ∨ ∃ out, r = some out
          ∧ (∀ i ∈ out, InstOk i) ∧ ∃ i ∈ out, i.certificates = [])
  | [], accHead, accRest => by
    intro hs hh hr hemp
    refine ⟨some ((accHead :: accRest).reverse), rfl,
      Or.inr ⟨_, rfl, ?_, ?_⟩⟩
    · intro i hi
      rw [List.mem_reverse] at hi
      rcases List.mem_cons.mp hi with h | h
      · subst h; exact hh
      · exact hr i h
    · rcases hemp with h | h | h
      · exact ⟨accHead, by simp, h⟩
      · obtain ⟨i, hi, _⟩ := h; simp at hi
      · obtain ⟨i, hi, hie⟩ := h
        exact ⟨i, by simp [hi], hie⟩
  | top :: stack, accHead, accRest => by
    intro hs hh hr hemp
    have htop : InstOk top := hs top (List.mem_cons_self _ _)
    have hs2 : ∀ i ∈ stack, InstOk i :=
      fun i hi => hs i (List.mem_cons_of_mem _ hi)
    by_cases hlen : accHead.certificates.length < 10000
    · obtain ⟨r0, hr0, hr0Ok, hr0none⟩ := mergeI_ok accHead top hh htop
      cases r0 with
      | none =>
        refine ⟨none, ?_, Or.inl rfl⟩
        simp only [batchLoop, hlen, if_true, hr0]
      | some m =>
        obtain ⟨hmOk, hmne⟩ := hr0Ok m rfl
        have hemp2 : m.certificates = []
            ∨ (∃ i ∈ stack, i.certificates = [])
            ∨ (∃ i ∈ accRest, i.certificates = []) := by
          rcases hemp with h | h | h
          · exact Option.noConfusion (hr0none (Or.inl h))
          · rcases h with ⟨i, hi, hie⟩
            rcases List.mem_cons.mp hi with h2 | h2
            · subst h2
              exact Option.noConfusion (hr0none (Or.inr hie))
            · exact Or.inr (Or.inl ⟨i, h2, hie⟩)
          · exact Or.inr (Or.inr h)
        obtain ⟨r, hrEq, hrP⟩ :=
          batchLoop_empty_member stack m accRest hs2 hmOk hr hemp2
        refine ⟨r, ?_, hrP⟩
        simp only [batchLoop, hlen, if_true, hr0]
        exact hrEq
    · have hemp2 : top.certificates = []
          ∨ (∃ i ∈ stack, i.certificates = [])
          ∨ (∃ i ∈ accHead :: accRest, i.certificates = []) := by
        rcases hemp with h | h | h
        · exact Or.inr (Or.inr ⟨accHead, List.mem_cons_self _ _, h⟩)
        · rcases h with ⟨i, hi, hie⟩
          rcases List.mem_cons.mp hi with h2 | h2
          · subst h2; exact Or.inl hie
          · exact Or.inr (Or.inl ⟨i, h2, hie⟩)
        · obtain ⟨i, hi, hie⟩ := h
          exact Or.inr (Or.inr ⟨i, List.mem_cons_of_mem _ hi, hie⟩)
      have hr2 : ∀ i ∈ accHead :: accRest, InstOk i := by
        intro i hi
        rcases List.mem_cons.mp hi with h2 | h2
        · subst h2; exact hh
        · exact hr i h2
      obtain ⟨r, hrEq, hrP⟩ :=
        batchLoop_empty_member stack top (accHead :: accRest) hs2 htop
          hr2 hemp2
      refine ⟨r, ?_, hrP⟩
      simp only [batchLoop, hlen, if_false]
      exact hrEq

/-- Like `batchLoop_empty_member` for one tournament round. -/
theorem pairRound_empty_member : ∀ (l : List Inst),
    (∀ i ∈ l, InstOk i) → (∃ i ∈ l, i.certificates = []) →
    ∃ r, pairRound l = .ok r
      ∧ (r = none ∨ ∃ next, r = some next ∧ (∀ i ∈ next, InstOk i)
          ∧ ∃ i ∈ next, i.certificates = [])
  | [] => by
    intro _ hemp
    obtain ⟨i, hi, _⟩ := hemp
    simp at hi
  | [x] => by
    intro hOk hemp
    exact ⟨some [x], rfl, Or.inr ⟨[x], rfl, hOk, hemp⟩⟩
  | a :: b :: rest => by
    intro hOk hemp
    have hA := hOk a (List.mem_cons_self _ _)
    have hB := hOk b (List.mem_cons_of_mem _ (List.mem_cons_self _ _))
    obtain ⟨r0, hr0, hr0Ok, hr0none⟩ := mergeI_ok a b hA hB
    have hstep : pairRound (a :: b :: rest)
        = match Inst.mergeI a b with
          | .error e => .error e
          | .ok (some m) =>
            match pairRound rest with
            | .error e => .error e
            | .ok (some tail) => .ok (some (m :: tail))
            | .ok none => .ok none
          | .ok none => .ok none := rfl
    cases r0 with
    | none =>
      refine ⟨none, ?_, Or.inl rfl⟩
      rw [hstep, hr0]
    | some m =>
      obtain ⟨hmOk, hmne⟩ := hr0Ok m rfl
      have hemp2 : ∃ i ∈ rest, i.certificates = [] := by
        rcases hemp with ⟨i, hi, hie⟩
        rcases List.mem_cons.mp hi with h2 | h2
        · subst h2
          exact Option.noConfusion (hr0none (Or.inl hie))
        rcases List.mem_cons.mp h2 with h3 | h3
        · subst h3
          exact Option.noConfusion (hr0none (Or.inr hie))
        · exact ⟨i, h3, hie⟩
      have hOk2 : ∀ i ∈ rest, InstOk i := fun i hi =>
        hOk i (List.mem_cons_of_mem _ (List.mem_cons_of_mem _ hi))
      obtain ⟨r1, hr1, hr1P⟩ := pairRound_empty_member rest hOk2 hemp2
      cases r1 with
      | none =>
        refine ⟨none, ?_, Or.inl rfl⟩
        rw [hstep, hr0, hr1]
      | some tail =>
        rcases hr1P with h | ⟨next, hnext, hnOk, hne⟩
        · cases h
        · injection hnext with htn
          subst htn
          refine ⟨some (m :: tail), ?_, Or.inr ⟨m :: tail, rfl, ?_, ?_⟩⟩
          · rw [hstep, hr0, hr1]
          · intro i hi
            rcases List.mem_cons.mp hi with h2 | h2
            · subst h2; exact hmOk
            · exact hnOk i h2
          · obtain ⟨i, hi, hie⟩ := hne
            exact ⟨i, List.mem_cons_of_mem _ hi, hie⟩

/-- `tournament`, stepped: a round whose `pairRound` reports a failed
merge makes the whole tournament report failure. -/
theorem tournament_step_none (l : List Inst) (h : 1 < l.length)
    (hp : pairRound l = .ok none) : tournament l = .ok none := by
  unfold tournament
  rw [dif_pos h]
  split
  · rename_i next heq
    rw [hp] at heq
    simp at heq
  · rfl
  · rename_i e heq
    rw [hp] at heq
    cases heq

/-- `tournament`, stepped: a completed round hands its output to the next
iteration of the loop. -/
theorem tournament_step_some (l next : List Inst) (h : 1 < l.length)
    (hp : pairRound l = .ok (some next)) :
    tournament l = tournament next := by
  conv_lhs => unfold tournament
  rw [dif_pos h]
  split
  · rename_i next2 heq
    rw [hp] at heq
    simp only [Except.ok.injEq, Option.some.injEq] at heq
    rw [heq]
  · rename_i heq
    rw [hp] at heq
    simp at heq
  · rename_i e heq
    rw [hp] at heq
    cases heq

/-- If the tournament starts with some sub-instance whose certificate
list is empty, it ends with a failed merge or with a survivor that has no
certificates. -/
theorem tournament_empty_member (l : List Inst)
    (hOk : ∀ i ∈ l, InstOk i) (hemp : ∃ i ∈ l, i.certificates = []) :
    ∃ r, tournament l = .ok r
      ∧ (r = none ∨ ∃ srv, r = some srv ∧ srv.certificates = []) := by
  by_cases hlen : 1 < l.length
  · obtain ⟨r0, hr0, hr0P⟩ := pairRound_empty_member l hOk hemp
    cases r0 with
    | none => exact ⟨none, tournament_step_none l hlen hr0, Or.inl rfl⟩
    | some next =>
      rcases hr0P with h | ⟨next2, hnext2, hnOk, hne⟩
      · cases h
      · simp only [Option.some.injEq] at hnext2
        subst hnext2
        have hlt : next.length < l.length := by
          have := pairRound_ok_length l next hr0
          omega
        obtain ⟨r1, hr1, hr1P⟩ := tournament_empty_member next hnOk hne
        exact ⟨r1, (tournament_step_some l next hlen hr0).trans hr1, hr1P⟩
  · match l, hemp with
    | [x], ⟨i, hi, hie⟩ =>
      have hix : i = x := by simpa using hi
      subst hix
      exact ⟨some i, tournament_single i, Or.inr ⟨i, rfl, hie⟩⟩
    | [], ⟨i, hi, _⟩ => simp at hi
    | a :: b :: rest, _ => simp at hlen
termination_by l.length
decreasing_by exact hlt

/-- `Except` bind on a success, as rewrite rules for stepping through
`mapM`. -/
theorem exc_bind_ok {α β : Type} (a : α) (f : α → Except String β) :
    (Except.ok a >>= f) = f a := rfl

theorem exc_pure {α : Type} (a : α) :
    (pure a : Except String α) = .ok a := rfl

/-- `_Clause.solve`'s loop never raises over nonzero literals and a
positive variable count; it yields one single-literal certificate per
literal. -/
theorem solveGo_ok (num_vars : Int) (lits : List Int) (hnv : 0 < num_vars)
    (hnz : ∀ l ∈ lits, l ≠ 0) :
    ∃ cs, solveGo num_vars lits = .ok cs ∧ (∀ c ∈ cs, CertOk c)
      ∧ cs.length = lits.length := by
  induction lits with
  | nil => exact ⟨[], rfl, by simp, rfl⟩
  | cons l rest ih =>
    have hinit : Certificate.init num_vars [] = .ok ⟨num_vars, []⟩ := by
      rw [Certificate.init_ok num_vars [] hnv (by simp)]
      rfl
    have hl0 : l ≠ 0 := hnz l (List.mem_cons_self _ _)
    have habs : abs l > 0 := abs_pos.mpr hl0
    have hpol : (if l > 0 then Assignment.true else Assignment.false)
        ≠ Assignment.unassigned := by
      by_cases hl : l > 0 <;> simp [hl]
    have hins : (Certificate.mk num_vars []).insert l
        = (⟨num_vars, [(abs l,
            if l > 0 then Assignment.true else Assignment.false)]⟩,
          none) := by
      unfold Certificate.insert
      rw [if_neg hl0, insert_pair_new ⟨num_vars, []⟩ (abs l)
        (if l > 0 then Assignment.true else Assignment.false)
        habs hpol rfl]
      rfl
    obtain ⟨cs, hcs, hcsOk, hlen⟩ :=
      ih (fun x hx => hnz x (List.mem_cons_of_mem _ hx))
    have hstep : solveGo num_vars (l :: rest)
        = match Certificate.init num_vars [] with
          | .error e => .error e
          | .ok c =>
            match c.insert l with
            | (_, some e) => .error e
            | (c2, none) =>
              match solveGo num_vars rest with
              | .error e => .error e
              | .ok certs => .ok (c2 :: certs) := rfl
    refine ⟨⟨num_vars, [(abs l,
        if l > 0 then Assignment.true else Assignment.false)]⟩ :: cs,
      ?_, ?_, by simp [hlen]⟩
    · rw [hstep]
      simp only [hinit, hins, hcs]
    · intro c hc
      rcases List.mem_cons.mp hc with h2 | h2
      · subst h2
        exact ⟨hnv, by intro p hp; simp at hp; simp [hp, habs]⟩
      · exact hcsOk c h2

/-- What `Instance.__init__` builds from a clause list alone. -/
theorem init_none_spec (cls : List Clause) (inst : Inst)
    (hnv : ∀ cl ∈ cls, 0 < cl.num_vars)
    (h : Inst.init cls none none = .ok inst) :
    inst.clauses = cls ∧ inst.remClauses = cls
      ∧ inst.certificates = [] := by
  unfold Inst.init at h
  rw [show (match (none : Option (List Clause)) with
      | none => cls.mapM Clause.copy
      | some r => Except.ok r) = cls.mapM Clause.copy from rfl,
    mapM_copy_ok cls hnv] at h
  cases hsz : instSize cls with
  | error e => rw [hsz] at h; cases h
  | ok sz =>
    rw [hsz] at h
    simp only [Except.ok.injEq] at h
    subst h
    exact ⟨rfl, rfl, rfl⟩

/-- What `mapM` over the raising `_Clause` constructor produces. -/
theorem mapM_clause_init_spec : ∀ (lls : List (List Int)) (nv : Int)
    (cls : List Clause),
    lls.mapM (fun ls => Clause.init ls nv none) = .ok cls →
    cls = lls.map (fun ls => ⟨ls, nv, ls⟩) ∧ (lls ≠ [] → 0 < nv)
  | [], nv, cls => by
    intro h
    simp only [List.mapM_nil] at h
    have : cls = [] := by
      have h2 : (pure [] : Except String (List Clause)) = .ok [] := rfl
      rw [h2] at h
      simp only [Except.ok.injEq] at h
      exact h.symm
    exact ⟨by simp [this], fun hne => absurd rfl hne⟩
  | ls :: rest, nv, cls => by
    intro h
    rw [List.mapM_cons] at h
    by_cases hnv : nv ≤ 0
    · rw [show Clause.init ls nv none = .error
          "must have a positive number of variables" from by
        unfold Clause.init; rw [if_pos hnv]] at h
      cases h
    · rw [show Clause.init ls nv none = .ok ⟨ls, nv, ls⟩ from by
        unfold Clause.init; rw [if_neg hnv]; rfl] at h
      cases hrest : rest.mapM (fun ls => Clause.init ls nv none) with
      | error e =>
        rw [show (Except.ok (⟨ls, nv, ls⟩ : Clause) >>= fun x =>
            rest.mapM (fun ls => Clause.init ls nv none) >>= fun xs =>
            pure (x :: xs)) = (rest.mapM (fun ls => Clause.init ls nv none)
              >>= fun xs => pure ((⟨ls, nv, ls⟩ : Clause) :: xs)) from rfl,
          hrest] at h
        cases h
      | ok clsRest =>
        obtain ⟨hcr, _⟩ := mapM_clause_init_spec rest nv clsRest hrest
        rw [show (Except.ok (⟨ls, nv, ls⟩ : Clause) >>= fun x =>
            rest.mapM (fun ls => Clause.init ls nv none) >>= fun xs =>
            pure (x :: xs)) = (rest.mapM (fun ls => Clause.init ls nv none)
              >>= fun xs => pure ((⟨ls, nv, ls⟩ : Clause) :: xs)) from rfl,
          hrest] at h
        have h2 : (⟨ls, nv, ls⟩ : Clause) :: clsRest = cls := by
          have h3 : (Except.ok clsRest >>= fun xs =>
              (pure ((⟨ls, nv, ls⟩ : Clause) :: xs)
                : Except String (List Clause)))
              = .ok ((⟨ls, nv, ls⟩ : Clause) :: clsRest) := rfl
          rw [h3] at h
          simp only [Except.ok.injEq] at h
          exact h
        refine ⟨?_, fun _ => by omega⟩
        rw [← h2, hcr]
        simp

/-- What `Instance.fromClauses`-style construction guarantees: a positive
declared variable count, clause and partial-clause lists that are fresh
clauses over the given literal lists, and no certificates. -/
theorem fromClauses_spec (lls : List (List Int)) (nv : Int) (inst : Inst)
    (h : Inst.fromClauses lls nv = .ok inst) :
    (lls ≠ [] → 0 < nv)
    ∧ inst.clauses = lls.map (fun ls => ⟨ls, nv, ls⟩)
    ∧ inst.remClauses = lls.map (fun ls => ⟨ls, nv, ls⟩)
    ∧ inst.certificates = [] := by
  unfold Inst.fromClauses at h
  cases hm : lls.mapM (fun ls => Clause.init ls nv none) with
  | error e => rw [hm] at h; cases h
  | ok cls =>
    rw [hm] at h
    obtain ⟨hcls, hnv⟩ := mapM_clause_init_spec lls nv cls hm
    have hnvAll : ∀ cl ∈ cls, 0 < cl.num_vars := by
      intro cl hcl
      rw [hcls] at hcl
      obtain ⟨ls, hls, hcl2⟩ := List.mem_map.mp hcl
      have : lls ≠ [] := by
        intro h2
        rw [h2] at hls
        simp at hls
      rw [← hcl2]
      exact hnv this
    obtain ⟨h1, h2, h3⟩ := init_none_spec cls inst hnvAll h
    rw [h1, h2, hcls]
    exact ⟨hnv, rfl, rfl, h3⟩

/-- The leaf stage of `solve` over clauses with a positive variable count
and nonzero literals: both line 317 and the per-leaf `solve()` of lines
318-319 succeed, every resulting leaf is well-formed, there is one leaf
per clause, and a clause whose partial literal list is empty contributes a
leaf with no certificates. -/
theorem leaves_spec : ∀ (cls : List Clause),
    (∀ cl ∈ cls, 0 < cl.num_vars) →
    (∀ cl ∈ cls, ∀ l ∈ cl.remLiterals, l ≠ 0) →
    ∃ i0 i1,
      cls.mapM (fun c =>
        (match Clause.copy c with
          | .error e => .error e
          | .ok cc => Inst.init [cc] none none : Except String Inst))
        = .ok i0
      ∧ i0.mapM Inst.leafSolve = .ok i1
      ∧ i1.length = cls.length
      ∧ (∀ li ∈ i1, InstOk li)
      ∧ (∀ cl ∈ cls, cl.remLiterals = [] →
          ∃ li ∈ i1, li.certificates = [])
  | [] => by
    intro _ _
    exact ⟨[], [], rfl, rfl, rfl, by simp, by simp⟩
  | c :: rest => by
    intro hnv hnz
    have hcnv : 0 < c.num_vars := hnv c (List.mem_cons_self _ _)
    have hcopy : Clause.copy c = .ok c := by
      unfold Clause.copy Clause.init
      rw [if_neg (by omega)]
      rfl
    have hcopy1 : [c].mapM Clause.copy = .ok [c] := by
      refine mapM_copy_ok [c] ?_
      intro cl hcl
      simp only [List.mem_singleton] at hcl
      subst hcl
      exact hcnv
    obtain ⟨sz, hsz⟩ : ∃ sz, instSize [c] = .ok sz := ⟨_, rfl⟩
    have hinit : Inst.init [c] none none = .ok ⟨[c], [c], [], sz⟩ := by
      unfold Inst.init
      rw [show (match (none : Option (List Clause)) with
          | none => [c].mapM Clause.copy
          | some r => Except.ok r) = [c].mapM Clause.copy from rfl]
      rw [hcopy1, hsz]
      rfl
    obtain ⟨cs, hcs, hcsOk, hcslen⟩ := solveGo_ok c.num_vars c.remLiterals
      hcnv (hnz c (List.mem_cons_self _ _))
    have hsolveC : Clause.solveC c = .ok cs := hcs
    have hsolve : Inst.leafSolve ⟨[c], [c], [], sz⟩
        = .ok ⟨[c], [c], cs, sz⟩ := by
      unfold Inst.leafSolve
      simp only [hsolveC]
    obtain ⟨i0r, i1r, h0r, h1r, hlenr, hOkr, hempr⟩ :=
      leaves_spec rest (fun cl hcl => hnv cl (List.mem_cons_of_mem _ hcl))
        (fun cl hcl => hnz cl (List.mem_cons_of_mem _ hcl))
    refine ⟨⟨[c], [c], [], sz⟩ :: i0r, ⟨[c], [c], cs, sz⟩ :: i1r,
      ?_, ?_, by simp [hlenr], ?_, ?_⟩
    · rw [List.mapM_cons]
      simp only [hcopy, hinit, h0r, exc_bind_ok, exc_pure]
    · rw [List.mapM_cons]
      simp only [hsolve, h1r, exc_bind_ok, exc_pure]
    · intro li hli
      rcases List.mem_cons.mp hli with h2 | h2
      · subst h2
        refine ⟨?_, ?_, hcsOk, by simp⟩
        · intro cl hcl
          simp only [List.mem_singleton] at hcl
          subst hcl
          exact hcnv
        · intro cl hcl
          simp only [List.mem_singleton] at hcl
          subst hcl
          exact hcnv
      · exact hOkr li h2
    · intro cl hcl hclrem
      rcases List.mem_cons.mp hcl with h2 | h2
      · subst h2
        refine ⟨⟨[cl], [cl], cs, sz⟩, List.mem_cons_self _ _, ?_⟩
        have hl0 : cs.length = 0 := by rw [hcslen, hclrem]; rfl
        exact List.length_eq_zero.mp hl0
      · obtain ⟨li, hli, hlie⟩ := hempr cl h2 hclrem
        exact ⟨li, List.mem_cons_of_mem _ hli, hlie⟩

/-- C4: an instance built from a clause list that contains an empty
clause is reported unsatisfiable by `solve`, whatever the other clauses
are (the literals being nonzero and the declared variable count positive,
as the data model requires of every well-formed instance); and the leaf
sub-instance built on the empty clause receives zero certificates from
that clause's `solve()`. -/
theorem c4_empty_clause_unsat (lls : List (List Int)) (nv : Int)
    (inst : Inst)
    (hnz : ∀ ls ∈ lls, ∀ l ∈ ls, l ≠ 0)
    (hfc : Inst.fromClauses lls nv = .ok inst)
    (hemp : [] ∈ lls) :
    (∃ inst2, inst.solve = .ok (Bool.false, inst2))
    ∧ (∀ cl ∈ inst.remClauses, cl.remLiterals = [] →
        cl.solveC = .ok []) := by
  obtain ⟨hnv0, hcl, hrem, hcerts⟩ := fromClauses_spec lls nv inst hfc
  have hlsne : lls ≠ [] := by
    intro h
    rw [h] at hemp
    simp at hemp
  have hnv := hnv0 hlsne
  have hsolveCempty : ∀ cl ∈ inst.remClauses, cl.remLiterals = [] →
      cl.solveC = .ok [] := by
    intro cl _ hre
    show solveGo cl.num_vars cl.remLiterals = .ok []
    rw [hre]
    rfl
  refine ⟨?_, hsolveCempty⟩
  have hnvAll : ∀ cl ∈ inst.remClauses, 0 < cl.num_vars := by
    intro cl hclm
    rw [hrem] at hclm
    obtain ⟨ls, _, h2⟩ := List.mem_map.mp hclm
    rw [← h2]
    exact hnv
  have hnzAll : ∀ cl ∈ inst.remClauses, ∀ l ∈ cl.remLiterals, l ≠ 0 := by
    intro cl hclm
    rw [hrem] at hclm
    obtain ⟨ls, hls, h2⟩ := List.mem_map.mp hclm
    rw [← h2]
    exact hnz ls hls
  obtain ⟨i0, i1, h0, h1, hlen1, hOk1, hempAll⟩ :=
    leaves_spec inst.remClauses hnvAll hnzAll
  have h0A : inst.leafInstances = .ok i0 := h0
  have hclemp : (⟨[], nv, []⟩ : Clause) ∈ inst.remClauses := by
    rw [hrem]
    exact List.mem_map.mpr ⟨[], hemp, rfl⟩
  obtain ⟨li, hli, hlie⟩ := hempAll ⟨[], nv, []⟩ hclemp rfl
  have hi1ne : i1 ≠ [] := by
    intro h
    rw [h] at hli
    simp at hli
  obtain ⟨first, rest, hrev⟩ : ∃ first rest, i1.reverse = first :: rest := by
    cases hr : i1.reverse with
    | nil =>
      exfalso
      apply hi1ne
      have := congrArg List.reverse hr
      simpa using this
    | cons x xs => exact ⟨x, xs, rfl⟩
  have hOkRev : ∀ i ∈ first :: rest, InstOk i := by
    intro i hi
    rw [← hrev, List.mem_reverse] at hi
    exact hOk1 i hi
  have hliRev : li ∈ first :: rest := by
    rw [← hrev, List.mem_reverse]
    exact hli
  have hempHyp : first.certificates = []
      ∨ (∃ i ∈ rest, i.certificates = [])
      ∨ (∃ i ∈ ([] : List Inst), i.certificates = []) := by
    rcases List.mem_cons.mp hliRev with h2 | h2
    · exact Or.inl (h2 ▸ hlie)
    · exact Or.inr (Or.inl ⟨li, h2, hlie⟩)
  obtain ⟨r, hrEq, hrP⟩ := batchLoop_empty_member rest first []
    (fun i hi => hOkRev i (List.mem_cons_of_mem _ hi))
    (hOkRev first (List.mem_cons_self _ _))
    (by simp) hempHyp
  rcases hrP with hnone | ⟨out, hout, houtOk, hempOut⟩
  · subst hnone
    exact ⟨inst, solve_batchfail inst i0 i1 first rest h0A h1 hrev hrEq⟩
  · subst hout
    obtain ⟨r2, hr2Eq, hr2P⟩ := tournament_empty_member out houtOk hempOut
    rcases hr2P with hnone2 | ⟨srv, hsrv, hsrvE⟩
    · subst hnone2
      exact ⟨inst, solve_tournfail inst i0 i1 first rest out h0A h1 hrev
        hrEq hr2Eq⟩
    · subst hsrv
      have hs := solve_success inst i0 i1 first rest out srv h0A h1 hrev
        hrEq hr2Eq
      rw [hsrvE] at hs
      refine ⟨{ inst with certificates := [] }, ?_⟩
      rw [hs]
      rfl

/-- C4 witness: the theorem applied to the instance built from `[[1],[]]`
with one declared variable. -/
theorem c4_empty_clause_unsat_witness :
    (∀ ls ∈ [[1], ([] : List Int)], ∀ l ∈ ls, l ≠ 0)
    ∧ ([] ∈ [[1], ([] : List Int)])
    ∧ (∃ inst2, c4I.solve = .ok (Bool.false, inst2))
    ∧ (∀ cl ∈ c4I.remClauses, cl.remLiterals = [] →
        cl.solveC = .ok []) := by
  have h := c4_empty_clause_unsat [[1], []] 1 c4I (by decide) rfl (by decide)
  exact ⟨by decide, by decide, h.1, h.2⟩

end MergeSAT
